import Mathlib

/-!
# Beat Canvas — verification of the audio feature-extraction engine and export pipeline

Shallow embedding of the core subsystems of the beat-canvas repository:

* the segment encoder `extractAudioSegment` (AudioSegmentExtractor),
* the declared `ReactiveFrame` interface versus the frame records actually
  produced by `buildReactiveFrames` (AudioAnalyzer),
* the transcode fallback chain `transcodeToMp4` (FfmpegTranscoder),
* the staged export pipeline `ExportService.export`,
* the in-place radix-2 FFT `fft` and the feature extractor `buildReactiveFrames`.

Machine arithmetic follows JavaScript semantics: `Number` values are modelled
as exact rationals (every IEEE double is rational) with explicit truncation
and wrap-around where typed-array stores occur; the transcendental parts of
the analysis (Hanning window, FFT twiddles, magnitudes) are modelled over the
real and complex numbers.
-/

namespace BeatCanvas

/-! ## JavaScript numeric conversions -/

/-- JavaScript ToInteger: truncation of a finite number toward zero. -/
def jsTrunc (q : ℚ) : ℤ :=
  if q < 0 then -(Int.floor (-q)) else Int.floor q

/-- JavaScript Math.round: floor of the value plus one half. -/
def jsRound (q : ℚ) : ℤ :=
  Int.floor (q + 1/2)

/-- JavaScript ToUint32 (used by DataView.setUint32): truncate, wrap mod 2^32. -/
def toUint32 (q : ℚ) : ℕ :=
  ((jsTrunc q) % (2^32 : ℤ)).toNat

/-! ## Little-endian byte serialization (DataView with littleEndian = true) -/

/-- The two little-endian bytes of a 16-bit store. -/
def le16 (w : ℕ) : List ℕ :=
  [w % 256, w / 256 % 256]

/-- The four little-endian bytes of a 32-bit store. -/
def le32 (w : ℕ) : List ℕ :=
  [w % 256, w / 256 % 256, w / 2^16 % 256, w / 2^24 % 256]

/-- Byte of a serialized buffer at a given offset (0 outside the buffer). -/
def byteAt (l : List ℕ) (k : ℕ) : ℕ :=
  l.getD k 0

/-- Read back an unsigned little-endian 16-bit word. -/
def readLE16 (l : List ℕ) (k : ℕ) : ℕ :=
  byteAt l k + 256 * byteAt l (k + 1)

/-- Read back an unsigned little-endian 32-bit word. -/
def readLE32 (l : List ℕ) (k : ℕ) : ℕ :=
  byteAt l k + 256 * byteAt l (k + 1) + 2^16 * byteAt l (k + 2) + 2^24 * byteAt l (k + 3)

/-! ## Audio data model

`AudioBuffer` mirrors the Web Audio `AudioBuffer` consumed by the repository:
a sample rate, a channel count, a length in sample frames, and per-channel
sample data (`getChannelData`). Sample values are rationals (Float32 values
are exact rationals). -/

structure AudioBuffer where
  sampleRate : ℚ
  numberOfChannels : ℕ
  length : ℕ
  channelData : ℕ → ℕ → ℚ

/-- `buffer.duration` of a Web Audio buffer: length divided by sample rate. -/
def AudioBuffer.duration (b : AudioBuffer) : ℚ :=
  (b.length : ℚ) / b.sampleRate

/-- The clip-range validity invariant of the spec data model:
`0 ≤ inTime < outTime ≤ sourceDuration` and `outTime - inTime ≤ 30`. -/
def ValidClipRange (b : AudioBuffer) (inTime outTime : ℚ) : Prop :=
  0 ≤ inTime ∧ inTime < outTime ∧ outTime ≤ b.duration ∧ outTime - inTime ≤ 30

instance (b : AudioBuffer) (inTime outTime : ℚ) : Decidable (ValidClipRange b inTime outTime) := by
  unfold ValidClipRange
  infer_instance

/-- `channelData[idx] ?? 0` of AudioSegmentExtractor: an out-of-range typed
array read yields undefined, coalesced to 0. -/
def sampleAt (b : AudioBuffer) (ch : ℕ) (idx : ℤ) : ℚ :=
  if 0 ≤ idx ∧ idx < (b.length : ℤ) then b.channelData ch idx.toNat else 0

/-! ## Segment encoder (src: AudioSegmentExtractor.ts, `extractAudioSegment`) -/

/-- `Math.max(-1, Math.min(1, sample))`. -/
def clampSample (s : ℚ) : ℚ :=
  max (-1) (min 1 s)

/-- `clamped < 0 ? clamped * 0x8000 : clamped * 0x7fff`, then the ToInteger
truncation applied by `DataView.setInt16`. -/
def quantizeSample (s : ℚ) : ℤ :=
  jsTrunc (if clampSample s < 0 then clampSample s * 32768 else clampSample s * 32767)

/-- The two bytes stored for one sample: `setInt16` wraps mod 2^16 and stores
little-endian. -/
def sampleBytes (s : ℚ) : List ℕ :=
  le16 ((quantizeSample s % (65536 : ℤ)).toNat)

/-- `Math.floor(inTime * sampleRate)` — the first sample index of the segment. -/
def startSampleOf (b : AudioBuffer) (inTime : ℚ) : ℤ :=
  Int.floor (inTime * b.sampleRate)

/-- Number of sample frames in the segment: `endSample - startSample`. -/
def segmentLength (b : AudioBuffer) (inTime outTime : ℚ) : ℕ :=
  (Int.floor (outTime * b.sampleRate) - Int.floor (inTime * b.sampleRate)).toNat

/-- The interleaved PCM16 payload: outer loop over sample frames, inner loop
over channels, two bytes per sample. -/
def wavData (b : AudioBuffer) (inTime outTime : ℚ) : List ℕ :=
  (List.range (segmentLength b inTime outTime)).flatMap fun i =>
    (List.range b.numberOfChannels).flatMap fun ch =>
      sampleBytes (sampleAt b ch (startSampleOf b inTime + i))

/-- `extractAudioSegment(buffer, inTime, outTime)`: the full RIFF/WAVE byte
array - 44-byte header followed by interleaved little-endian PCM16 samples,
exactly the sequence of DataView writes of the source. -/
def extractAudioSegment (b : AudioBuffer) (inTime outTime : ℚ) : List ℕ :=
  let len := segmentLength b inTime outTime
  let channels := b.numberOfChannels
  let dataSize := len * channels * 2
  let totalSize := 44 + dataSize
  -- "RIFF", ChunkSize, "WAVE"
  [82, 73, 70, 70] ++ le32 (totalSize - 8) ++ [87, 65, 86, 69]
  -- "fmt ", chunk size 16, PCM format 1, NumChannels
  ++ [102, 109, 116, 32] ++ le32 16 ++ le16 1 ++ le16 channels
  -- SampleRate, ByteRate = sampleRate * channels * 2
  ++ le32 (toUint32 b.sampleRate) ++ le32 (toUint32 (b.sampleRate * channels * 2))
  -- BlockAlign = channels * 2, BitsPerSample = 16
  ++ le16 (channels * 2) ++ le16 16
  -- "data", data chunk size, payload
  ++ [100, 97, 116, 97] ++ le32 dataSize ++ wavData b inTime outTime

/-- The shape of the container written by `extractAudioSegment`: the 44
header bytes (one cons cell per DataView write) parameterized by the field
values, followed by the payload. -/
def wavTemplate (chunkSize channels sampleRate byteRate blockAlign dataSize : ℕ)
    (payload : List ℕ) : List ℕ :=
  82 :: 73 :: 70 :: 70
    :: chunkSize % 256 :: chunkSize / 256 % 256
    :: chunkSize / 2 ^ 16 % 256 :: chunkSize / 2 ^ 24 % 256
    :: 87 :: 65 :: 86 :: 69
    :: 102 :: 109 :: 116 :: 32
    :: 16 :: 0 :: 0 :: 0
    :: 1 :: 0
    :: channels % 256 :: channels / 256 % 256
    :: sampleRate % 256 :: sampleRate / 256 % 256
    :: sampleRate / 2 ^ 16 % 256 :: sampleRate / 2 ^ 24 % 256
    :: byteRate % 256 :: byteRate / 256 % 256
    :: byteRate / 2 ^ 16 % 256 :: byteRate / 2 ^ 24 % 256
    :: blockAlign % 256 :: blockAlign / 256 % 256
    :: 16 :: 0
    :: 100 :: 97 :: 116 :: 97
    :: dataSize % 256 :: dataSize / 256 % 256
    :: dataSize / 2 ^ 16 % 256 :: dataSize / 2 ^ 24 % 256
    :: payload

/-- Modelled from the spec: the repository ships no PCM decoder, only the
encoder; the round-trip property speaks of `decode(encode(...))`. Reads the
little-endian word at an offset and interprets it as a signed 16-bit value. -/
def readInt16 (l : List ℕ) (k : ℕ) : ℤ :=
  let w := readLE16 l k
  if w < 32768 then (w : ℤ) else (w : ℤ) - 65536

/-- Modelled from the spec: decode one signed 16-bit PCM value back to a
sample, inverting the asymmetric quantization of the encoder (negative
values were scaled by 0x8000, non-negative ones by 0x7fff). -/
def decodePcm16 (v : ℤ) : ℚ :=
  if v < 0 then (v : ℚ) / 32768 else (v : ℚ) / 32767

/-! ## Declared versus produced ReactiveFrame fields (claim C2)

`src/types/project.ts` declares the `ReactiveFrame` interface; the object
literal pushed by `buildReactiveFrames` in the AudioAnalyzer carries only
five of its eight required fields, and the beat-detection constants of
`audioConstants.ts` are never imported by any module. -/

/-- The fields of the `ReactiveFrame` interface declared in src/types/project.ts. -/
def reactiveFrameInterfaceFields : List String :=
  ["time", "bass", "mid", "treble", "amplitude", "kick", "onset", "kickIntensity"]

/-- The fields of the object literal `frames.push({ time, bass, mid, treble,
amplitude })` in `buildReactiveFrames` (AudioAnalyzer). -/
def builtFrameFields : List String :=
  ["time", "bass", "mid", "treble", "amplitude"]

/-- The beat-detection constants defined in src/lib/audio/audioConstants.ts. -/
def beatDetectionConstants : List String :=
  ["KICK_THRESHOLD", "ONSET_THRESHOLD", "KICK_DECAY", "KICK_COOLDOWN_FRAMES"]

/-- The names the AudioAnalyzer imports from audioConstants.ts. -/
def audioAnalyzerImports : List String :=
  ["FFT_SIZE", "FPS", "BASS_LOW", "BASS_HIGH", "MID_LOW", "MID_HIGH",
   "TREBLE_LOW", "TREBLE_HIGH", "ATTACK_ALPHA", "RELEASE_ALPHA",
   "QUIET_THRESHOLD", "QUIET_TARGET_PEAK"]

/-! ## Transcode fallback chain (src: FfmpegTranscoder.ts, `transcodeToMp4`)

The ffmpeg.wasm engine is an injected collaborator: `FfmpegEnv` records
whether loading succeeds (any failure of `getFFmpeg`/`writeFile` escapes to
the outer catch), the outcome of each `exec` invocation as a function of its
argument list, and the virtual-filesystem contents read back by `readFile`. -/

/-- Outcome oracle for the ffmpeg.wasm collaborator. `exec` and `readFile`
are functions of the argument list and of the two input files written to the
virtual filesystem (`video.webm` and `audio.wav`), so the produced bytes may
depend on everything the real engine can observe. -/
structure FfmpegEnv where
  loadOk : Bool
  exec : List String → List ℕ → List ℕ → Except String Unit
  readFile : String → List ℕ → List ℕ → List ℕ

/-- The primary (MP4) codec arguments of `ffmpeg.exec` in `transcodeToMp4`. -/
def mp4Args : List String :=
  ["-i", "video.webm", "-i", "audio.wav", "-c:v", "libx264", "-preset", "fast",
   "-crf", "23", "-c:a", "aac", "-b:a", "192k", "-pix_fmt", "yuv420p",
   "-movflags", "+faststart", "-shortest", "output.mp4"]

/-- The fallback (WebM) codec arguments: the captured video stream is copied
unre-encoded and the audio is re-encoded to opus. -/
def webmArgs : List String :=
  ["-i", "video.webm", "-i", "audio.wav", "-c:v", "copy", "-c:a", "opus",
   "-b:a", "128k", "-shortest", "output.webm"]

/-- Whether an exec attempt succeeded (reached past the await without a
thrown error). -/
def execOk : Except String Unit → Bool
  | Except.ok _ => true
  | Except.error _ => false

/-- `TranscodeResult` of FfmpegTranscoder.ts. -/
structure TranscodeResult where
  blob : List ℕ
  format : String
  warning : Option String
deriving DecidableEq

/-- `transcodeToMp4(videoBlob, audioData)`: the nested try/catch chain of the
source. A load (or input-write) failure escapes to the outer catch; a failed
primary exec falls through to the WebM attempt; a failed WebM attempt returns
the captured video bytes unchanged. Every branch is a returned value - the
function can not raise. -/
def transcodeToMp4 (env : FfmpegEnv) (videoBlob : List ℕ) (audioData : List ℕ) :
    TranscodeResult :=
  if env.loadOk then
    match env.exec mp4Args videoBlob audioData with
    | Except.ok _ =>
        { blob := env.readFile ("output.mp4") videoBlob audioData, format := "mp4",
          warning := none }
    | Except.error _ =>
        match env.exec webmArgs videoBlob audioData with
        | Except.ok _ =>
            { blob := env.readFile ("output.webm") videoBlob audioData, format := "webm",
              warning := some ("MP4 encoding unavailable. Exported as WebM instead.") }
        | Except.error _ =>
            { blob := videoBlob, format := "webm",
              warning := some ("Audio muxing failed. Video exported without audio.") }
  else
    { blob := videoBlob, format := "webm",
      warning := some ("FFmpeg unavailable. Video exported without audio.") }

/-! ## ReactiveFrame records as produced by the AudioAnalyzer

The object literal pushed by `buildReactiveFrames` carries exactly these five
fields (claim C2 concerns the three missing beat-detector fields). -/

structure ReactiveFrame where
  time : ℝ
  bass : ℝ
  mid : ℝ
  treble : ℝ
  amplitude : ℝ

/-! ## Export pipeline (src: ExportService.ts, `ExportService.export`)

The renderer, template, overlay system and canvas recorder are injected
collaborators; `ExportEnv` records their observable behavior: whether
`CanvasRecorder.start` succeeds, the blob obtained from the recorder (a
function of the canvas size parsed from the requested resolution), the
ffmpeg oracle, and `Date.now()`. Cancellation is cooperative: the flag is
polled at a fixed sequence of points - poll 0 before any resource exists,
poll 1 after audio extraction, poll `2 + f` at the top of render-frame `f`,
and poll `2 + totalFrames` after the recorder has been stopped. `cancelAt`
is the index of the first poll that observes the flag set. -/

structure ExportOptions where
  resolution : String
  format : String

structure ExportConfig where
  audioBuffer : AudioBuffer
  inTime : ℚ
  outTime : ℚ
  reactiveFrames : List ReactiveFrame
  palette : List String
  intensityMultiplier : ℚ
  options : ExportOptions

/-- `ExportResult` of src/types/export.ts (blob as bytes). -/
structure ExportResult where
  blob : List ℕ
  filename : String
  format : String
  duration : ℚ
  warning : Option String
deriving DecidableEq

/-- Terminal outcome of one `export()` call: a resolved result or a thrown
error message (`throw new Error(...)`). Cancellation is the thrown message
`Export cancelled`. -/
inductive ExportOutcome where
  | done (r : ExportResult)
  | thrown (msg : String)
deriving DecidableEq

/-- The format of a resolved result, if any. -/
def ExportOutcome.formatOf : ExportOutcome → Option String
  | ExportOutcome.done r => some r.format
  | ExportOutcome.thrown _ => none

/-- Resource accounting over one run: how many times each collaborator was
created and disposed (the recorder counts started/aborted-or-stopped). -/
structure ResLog where
  rendererCreated : ℕ
  rendererDisposed : ℕ
  templateLoaded : ℕ
  templateDisposed : ℕ
  overlayInit : ℕ
  overlayDisposed : ℕ
  recorderStarted : ℕ
  recorderStopped : ℕ
deriving DecidableEq

/-- No live handles: everything created has been disposed and every started
recording has been stopped or aborted. -/
def ResLog.balanced (r : ResLog) : Bool :=
  r.rendererCreated = r.rendererDisposed ∧ r.templateLoaded = r.templateDisposed
    ∧ r.overlayInit = r.overlayDisposed ∧ r.recorderStarted = r.recorderStopped

/-- Resource log of the path that throws at poll 0: nothing created yet. -/
def resLogNothing : ResLog := ⟨0, 0, 0, 0, 0, 0, 0, 0⟩

/-- Resource log after `cleanup(templateManager, overlaySystem)` with no
recording started: renderer, template and overlay created and disposed. -/
def resLogPrepared : ResLog := ⟨1, 1, 1, 1, 1, 1, 0, 0⟩

/-- Resource log after a full cleanup with the recording also ended
(`recorder.cancel()` or `recorder.stop()`). -/
def resLogAll : ResLog := ⟨1, 1, 1, 1, 1, 1, 1, 1⟩

/-- Collaborator behavior and cancellation schedule for one export run. -/
structure ExportEnv where
  cancelAt : Option ℕ
  recorderStartOk : Bool
  recorderBlob : ℕ → ℕ → List ℕ
  ffmpeg : FfmpegEnv
  now : ℕ

/-- Whether the cooperative cancellation flag reads true at poll index `k`.
The flag is monotone: once set it stays set. -/
def cancelHit (env : ExportEnv) (k : ℕ) : Bool :=
  match env.cancelAt with
  | none => false
  | some c => c ≤ k

/-- `config.options.resolution.split("x")` with `parseInt` and the
1080/1920 fallbacks. -/
def parseResolution (res : String) : ℕ × ℕ :=
  let parts := res.splitOn ("x")
  (((parts.getD 0 ("1080")).toNat?).getD 1080, ((parts.getD 1 ("1920")).toNat?).getD 1920)

/-- The local `FPS = 30` constant of ExportService.ts. -/
def exportFPS : ℚ := 30

/-- `totalFrames = Math.ceil(clipDuration * FPS)` as re-derived by
`ExportService.export` from the clip range. -/
def exportTotalFrames (inTime outTime : ℚ) : ℕ :=
  (Int.ceil ((outTime - inTime) * exportFPS)).toNat

/-- The render loop: returns the first frame index whose top-of-iteration
poll observes the cancellation flag, if any. -/
def findRenderCancel (env : ExportEnv) : ℕ → ℕ → Option ℕ
  | _, 0 => none
  | f, rem + 1 => if cancelHit env (2 + f) then some f else findRenderCancel env (f + 1) rem

/-- `ExportService.export(config)`: the staged pipeline of the source with
its cancellation polls, the recorder-unsupported error path, the transcode
handoff and the final result packaging, together with the resource log of
the taken path. -/
def runExport (config : ExportConfig) (env : ExportEnv) : ExportOutcome × ResLog :=
  let clipDuration := config.outTime - config.inTime
  let totalFrames := exportTotalFrames config.inTime config.outTime
  let dims := parseResolution config.options.resolution
  -- poll 0: `if (this.cancelled) throw` before the canvas and renderer exist
  if cancelHit env 0 then (ExportOutcome.thrown ("Export cancelled"), resLogNothing)
  else
    -- preparing: renderer created, template loaded, overlays initialized,
    -- audio segment encoded
    let audioWav := extractAudioSegment config.audioBuffer config.inTime config.outTime
    -- poll 1: cleanup(templateManager, overlaySystem) then throw
    if cancelHit env 1 then (ExportOutcome.thrown ("Export cancelled"), resLogPrepared)
    else if env.recorderStartOk = false then
      (ExportOutcome.thrown ("MediaRecorder not supported"), resLogPrepared)
    else
      match findRenderCancel env 0 totalFrames with
      | some _ =>
          -- recorder.cancel(); cleanup; throw
          (ExportOutcome.thrown ("Export cancelled"), resLogAll)
      | none =>
          -- recorder stopped after the grace period; poll `2 + totalFrames`
          if cancelHit env (2 + totalFrames) then
            (ExportOutcome.thrown ("Export cancelled"), resLogAll)
          else
            let videoBlob := env.recorderBlob dims.1 dims.2
            let result := transcodeToMp4 env.ffmpeg videoBlob audioWav
            let extension := if result.format = "mp4" then "mp4" else "webm"
            let filename := "beat-canvas-" ++ toString env.now ++ "." ++ extension
            (ExportOutcome.done
              { blob := result.blob, filename := filename, format := result.format,
                duration := clipDuration, warning := result.warning }, resLogAll)

/-- The result packaged by the `done` path of `ExportService.export`: the
transcode outcome of the captured video and the encoded audio segment, a
generated filename, the achieved format and the clip duration. -/
def exportDoneResult (config : ExportConfig) (env : ExportEnv) : ExportResult :=
  let dims := parseResolution config.options.resolution
  let audioWav := extractAudioSegment config.audioBuffer config.inTime config.outTime
  let result := transcodeToMp4 env.ffmpeg (env.recorderBlob dims.1 dims.2) audioWav
  let extension := if result.format = "mp4" then "mp4" else "webm"
  { blob := result.blob,
    filename := "beat-canvas-" ++ toString env.now ++ "." ++ extension,
    format := result.format, duration := config.outTime - config.inTime,
    warning := result.warning }

/-- The terminal classification applied by `useExport.startExport`: a thrown
`Export cancelled` silently resets to idle (the distinguished cancelled
outcome); any other thrown message becomes the error state. -/
inductive TerminalState where
  | finished
  | cancelledReset
  | failed
deriving DecidableEq

/-- src/hooks/useExport.ts: catch handler comparing the message with
`Export cancelled`. -/
def useExportTerminal : ExportOutcome → TerminalState
  | ExportOutcome.done _ => TerminalState.finished
  | ExportOutcome.thrown m =>
      if m = "Export cancelled" then TerminalState.cancelledReset else TerminalState.failed

/-- A config whose requested output format is replaced (all other fields
unchanged), for the format-independence hyperproperty. -/
def withFormat (cfg : ExportConfig) (f : String) : ExportConfig :=
  { cfg with options := { cfg.options with format := f } }

/-! ## Spectral transform (src: AudioAnalyzer.ts, `fft`)

The source mutates two equal-length Float64Arrays `re`/`im` in place; the
model carries one array of complex numbers (the loop body on the pair
`(re, im)` is literally complex multiplication and addition) as a total
function `ℕ → ℂ` of which only indices below `n` are meaningful. -/

/-- The reversed-binary increment inside the bit-reversal pass:
`for (; j & bit; bit >>= 1) j ^= bit; j ^= bit`. -/
def revInc (j : ℕ) (bit : ℕ) : ℕ :=
  if j &&& bit ≠ 0 then revInc (j ^^^ bit) (bit / 2) else j ^^^ bit
termination_by bit
decreasing_by
  have hb : bit ≠ 0 := by
    rintro rfl
    simp_all
  omega

/-- Swap the entries at two positions:
`[re[i], re[j]] = [re[j], re[i]]` (and likewise for `im`). -/
def swapAt (v : ℕ → ℂ) (a b : ℕ) : ℕ → ℂ :=
  fun k => if k = a then v b else if k = b then v a else v k

/-- The bit-reversal permutation loop: `for (let i = 1, j = 0; i < n; i++)`,
updating `j` by the reversed increment and swapping when `i < j`. -/
def bitrevLoop (n : ℕ) (i j : ℕ) (v : ℕ → ℂ) : ℕ → ℂ :=
  if i < n then
    let j2 := revInc j (n / 2)
    let v2 := if i < j2 then swapAt v i j2 else v
    bitrevLoop n (i + 1) j2 v2
  else v
termination_by n - i

/-- The full bit-reversal pass starting from `i = 1, j = 0`. -/
def bitrevPass (n : ℕ) (v : ℕ → ℂ) : ℕ → ℂ :=
  bitrevLoop n 1 0 v

/-- The stage twiddle factor: `angle = -2π/len`, `w = cos(angle) + i·sin(angle)`. -/
noncomputable def twiddle (len : ℕ) : ℂ :=
  ⟨Real.cos (-2 * Real.pi / len), Real.sin (-2 * Real.pi / len)⟩

/-- The innermost butterfly loop over `j < halfLen` of one block starting at
`i`, carrying the running twiddle power `cur` (initially 1, multiplied by `w`
each iteration). Reads `a = i + j` and `b = a + halfLen`, writes
`v[b] = v[a] - cur·v[b]` and `v[a] = v[a] + cur·v[b]`. -/
noncomputable def innerLoop (half i : ℕ) (w cur : ℂ) (j : ℕ) (v : ℕ → ℂ) : ℕ → ℂ :=
  if j < half then
    let a := i + j
    let b := a + half
    let t := cur * v b
    let v2 : ℕ → ℂ := fun k => if k = b then v a - t else if k = a then v a + t else v k
    innerLoop half i w (cur * w) (j + 1) v2
  else v
termination_by half - j

/-- The middle loop `for (let i = 0; i < n; i += len)` over the blocks of one
stage. (`0 < len` in the guard only justifies termination; every call site
has `len ≥ 2`.) -/
noncomputable def blockLoop (n len : ℕ) (w : ℂ) (i : ℕ) (v : ℕ → ℂ) : ℕ → ℂ :=
  if i < n ∧ 0 < len then blockLoop n len w (i + len) (innerLoop (len / 2) i w 1 0 v) else v
termination_by n - i

/-- The outer loop `for (let len = 2; len <= n; len <<= 1)` over the stages.
(`2 ≤ len` in the guard only justifies termination; the initial value is 2
and each iteration doubles it.) -/
noncomputable def stageLoop (n len : ℕ) (v : ℕ → ℂ) : ℕ → ℂ :=
  if 2 ≤ len ∧ len ≤ n then stageLoop n (2 * len) (blockLoop n len (twiddle len) 0 v) else v
termination_by n + 1 - len

/-- `fft(re, im)` of AudioAnalyzer.ts: bit-reversal permutation followed by
the iterative butterfly stages, on arrays of length `n`. -/
noncomputable def fft (n : ℕ) (v : ℕ → ℂ) : ℕ → ℂ :=
  stageLoop n 2 (bitrevPass n v)

/-- Reversal of an `m`-bit number (low bit becomes high bit). -/
def bitRev : ℕ → ℕ → ℕ
  | 0, _ => 0
  | m + 1, i => (i % 2) * 2 ^ m + bitRev m (i / 2)

/-- The reference discrete Fourier transform with kernel `e^{-2πi·jk/n}`. -/
noncomputable def dft (n : ℕ) (x : ℕ → ℂ) (k : ℕ) : ℂ :=
  ∑ j ∈ Finset.range n, x j * Complex.exp (Complex.I * (-2 * Real.pi * j * k / n))

/-! ## Feature extractor (src: AudioAnalyzer.ts, `buildReactiveFrames`)

Constants from src/lib/audio/audioConstants.ts. -/

def FFT_SIZE : ℕ := 2048
def FPS : ℚ := 30
def BASS_LOW : ℚ := 20
def BASS_HIGH : ℚ := 250
def MID_LOW : ℚ := 250
def MID_HIGH : ℚ := 4000
def TREBLE_LOW : ℚ := 4000
def TREBLE_HIGH : ℚ := 16000
noncomputable def ATTACK_ALPHA : ℝ := 0.8
noncomputable def RELEASE_ALPHA : ℝ := 0.3
noncomputable def QUIET_THRESHOLD : ℝ := 0.1
noncomputable def QUIET_TARGET_PEAK : ℝ := 0.8

/-- `getMono`: average of the channels at one sample index. -/
def getMono (b : AudioBuffer) (i : ℕ) : ℚ :=
  ∑ ch ∈ Finset.range b.numberOfChannels, b.channelData ch i / b.numberOfChannels

/-- `totalFrames = Math.ceil(clipDuration * FPS)` of the AudioAnalyzer. -/
def analyzerTotalFrames (inTime outTime : ℚ) : ℕ :=
  (Int.ceil ((outTime - inTime) * FPS)).toNat

/-- `sampleStart = Math.floor((inTime + f / FPS) * sampleRate)`. -/
def frameSampleStart (b : AudioBuffer) (inTime : ℚ) (f : ℕ) : ℤ :=
  Int.floor ((inTime + (f : ℚ) / FPS) * b.sampleRate)

/-- Sample `i` of the FFT window of frame `f`: the window is centered at the
frame (offset by `halfFFT = FFT_SIZE / 2`) and zero-padded outside the
buffer: `idx >= 0 && idx < mono.length ? mono[idx] : 0`. -/
def windowSample (b : AudioBuffer) (inTime : ℚ) (f i : ℕ) : ℚ :=
  let idx : ℤ := frameSampleStart b inTime f + i - (FFT_SIZE / 2 : ℕ)
  if 0 ≤ idx ∧ idx < (b.length : ℤ) then getMono b idx.toNat else 0

/-- The Hanning factor `0.5 * (1 - cos(2πi/(n-1)))` applied in place by
`hanningWindow`. -/
noncomputable def hannFactor (n i : ℕ) : ℝ :=
  0.5 * (1 - Real.cos (2 * Real.pi * i / (n - 1 : ℕ)))

/-- The complex FFT input of frame `f`: the windowed real samples (the `im`
array starts as zeros). -/
noncomputable def windowedInput (b : AudioBuffer) (inTime : ℚ) (f : ℕ) : ℕ → ℂ :=
  fun i => ((windowSample b inTime f i : ℝ) * hannFactor FFT_SIZE i : ℝ)

/-- `magnitudes[i] = sqrt(re[i]² + im[i]²) / halfFFT`. -/
noncomputable def magnitudeOf (v : ℕ → ℂ) (i : ℕ) : ℝ :=
  Real.sqrt ((v i).re * (v i).re + (v i).im * (v i).im) / (FFT_SIZE / 2 : ℕ)

/-- The magnitude spectrum of frame `f`. -/
noncomputable def frameMagnitudes (b : AudioBuffer) (inTime : ℚ) (f : ℕ) : ℕ → ℝ :=
  magnitudeOf (fft FFT_SIZE (windowedInput b inTime f))

/-- `getBandEnergy(magnitudes, sampleRate, fftSize, lowHz, highHz)`: average
magnitude over the bins of one frequency band. -/
noncomputable def getBandEnergy (mags : ℕ → ℝ) (sampleRate : ℚ) (fftSize : ℕ)
    (lowHz highHz : ℚ) : ℝ :=
  let binWidth : ℚ := sampleRate / fftSize
  let lowBin : ℕ := max 1 (Int.floor (lowHz / binWidth)).toNat
  let highBin : ℕ := (min ((fftSize / 2 : ℕ) : ℤ) (Int.ceil (highHz / binWidth))).toNat
  let s : ℝ := ∑ k ∈ Finset.Ico lowBin highBin, mags k
  let count : ℕ := highBin - lowBin
  if 0 < count then s / count else 0

/-- Raw bass energy of frame `f` (before smoothing). -/
noncomputable def rawBass (b : AudioBuffer) (inTime : ℚ) (f : ℕ) : ℝ :=
  getBandEnergy (frameMagnitudes b inTime f) b.sampleRate FFT_SIZE BASS_LOW BASS_HIGH

/-- Raw mid energy of frame `f`. -/
noncomputable def rawMid (b : AudioBuffer) (inTime : ℚ) (f : ℕ) : ℝ :=
  getBandEnergy (frameMagnitudes b inTime f) b.sampleRate FFT_SIZE MID_LOW MID_HIGH

/-- Raw treble energy of frame `f`. -/
noncomputable def rawTreble (b : AudioBuffer) (inTime : ℚ) (f : ℕ) : ℝ :=
  getBandEnergy (frameMagnitudes b inTime f) b.sampleRate FFT_SIZE TREBLE_LOW TREBLE_HIGH

/-- Time-domain RMS over the window of frame `f`:
`sqrt(ampSum / ampWindow)` with `ampWindow = min(FFT_SIZE, mono.length)` and
the same zero-padding guard as the FFT window. -/
noncomputable def rawAmplitude (b : AudioBuffer) (inTime : ℚ) (f : ℕ) : ℝ :=
  let ampWindow := min FFT_SIZE b.length
  let ampSum : ℝ :=
    ∑ i ∈ Finset.range ampWindow,
      (windowSample b inTime f i : ℝ) * (windowSample b inTime f i : ℝ)
  Real.sqrt (ampSum / ampWindow)

/-- Asymmetric exponential smoothing: attack coefficient when rising,
release coefficient otherwise. -/
noncomputable def smoothValue (prev x : ℝ) : ℝ :=
  if x > prev then prev + ATTACK_ALPHA * (x - prev) else prev + RELEASE_ALPHA * (x - prev)

/-- The per-frame loop of `buildReactiveFrames`: frame index `f`, remaining
count, and the four previous smoothed values carried frame to frame. -/
noncomputable def framesLoop (b : AudioBuffer) (inTime : ℚ) :
    ℕ → ℕ → ℝ → ℝ → ℝ → ℝ → List ReactiveFrame
  | _, 0, _, _, _, _ => []
  | f, cnt + 1, pB, pM, pT, pA =>
    let bass := smoothValue pB (rawBass b inTime f)
    let mid := smoothValue pM (rawMid b inTime f)
    let treble := smoothValue pT (rawTreble b inTime f)
    let amplitude := smoothValue pA (rawAmplitude b inTime f)
    { time := (((f : ℚ) / FPS : ℚ) : ℝ), bass := bass, mid := mid, treble := treble,
      amplitude := amplitude }
      :: framesLoop b inTime (f + 1) cnt bass mid treble amplitude

/-- The raw (smoothed, pre-normalization) frame sequence. -/
noncomputable def rawFrames (b : AudioBuffer) (inTime outTime : ℚ) : List ReactiveFrame :=
  framesLoop b inTime 0 (analyzerTotalFrames inTime outTime) 0 0 0 0

/-- The per-band maximum pass: `if (frame.x > maxX) maxX = frame.x` starting
from 0. -/
noncomputable def maxField (g : ReactiveFrame → ℝ) (frames : List ReactiveFrame) : ℝ :=
  frames.foldl (fun acc fr => if g fr > acc then g fr else acc) 0

/-- The whole-sequence normalization pass: each band divided by its maximum,
skipped when that maximum is 0. -/
noncomputable def normalizedFrames (b : AudioBuffer) (inTime outTime : ℚ) :
    List ReactiveFrame :=
  let frames := rawFrames b inTime outTime
  let maxBass := maxField (fun fr => fr.bass) frames
  let maxMid := maxField (fun fr => fr.mid) frames
  let maxTreble := maxField (fun fr => fr.treble) frames
  let maxAmp := maxField (fun fr => fr.amplitude) frames
  frames.map fun fr =>
    { time := fr.time,
      bass := if maxBass > 0 then fr.bass / maxBass else fr.bass,
      mid := if maxMid > 0 then fr.mid / maxMid else fr.mid,
      treble := if maxTreble > 0 then fr.treble / maxTreble else fr.treble,
      amplitude := if maxAmp > 0 then fr.amplitude / maxAmp else fr.amplitude }

/-- The quiet-audio boost applied to one frame:
`Math.min(1, value * QUIET_TARGET_PEAK)` on all four bands. -/
noncomputable def quietBoost (fr : ReactiveFrame) : ReactiveFrame :=
  { time := fr.time,
    bass := min 1 (fr.bass * QUIET_TARGET_PEAK),
    mid := min 1 (fr.mid * QUIET_TARGET_PEAK),
    treble := min 1 (fr.treble * QUIET_TARGET_PEAK),
    amplitude := min 1 (fr.amplitude * QUIET_TARGET_PEAK) }

/-- The pre-normalization global amplitude maximum (`maxAmp` in the source,
computed before the division pass and consulted by the quiet check). -/
noncomputable def preNormMaxAmp (b : AudioBuffer) (inTime outTime : ℚ) : ℝ :=
  maxField (fun fr => fr.amplitude) (rawFrames b inTime outTime)

/-- `buildReactiveFrames(buffer, inTime, outTime)`: the smoothed frames,
normalized per band, then uniformly boosted when the pre-normalization
amplitude maximum is below the quiet threshold. -/
noncomputable def buildReactiveFrames (b : AudioBuffer) (inTime outTime : ℚ) :
    List ReactiveFrame :=
  if preNormMaxAmp b inTime outTime < QUIET_THRESHOLD then
    (normalizedFrames b inTime outTime).map quietBoost
  else normalizedFrames b inTime outTime

/-! ## Concrete fixtures for witnesses and counterexamples -/

/-- A 4-sample mono buffer at 2 Hz with samples `i / 10`; the clip range
`[3/4, 7/4]` makes `inTime * sampleRate = 1.5`, where flooring and rounding
disagree. -/
def cexBuffer : AudioBuffer :=
  { sampleRate := 2, numberOfChannels := 1, length := 4,
    channelData := fun _ i => (i : ℚ) / 10 }

/-- A 2-sample mono buffer holding one in-range sample and one clipped
sample below -1. -/
def witnessBuffer : AudioBuffer :=
  { sampleRate := 1, numberOfChannels := 1, length := 2,
    channelData := fun _ i => if i = 0 then 1/2 else -(3/2) }

/-- A silent one-second mono buffer at 30 Hz. -/
def silentBuffer : AudioBuffer :=
  { sampleRate := 30, numberOfChannels := 1, length := 30,
    channelData := fun _ _ => 0 }

/-- A one-frame export config over a silent buffer. -/
def cexExportConfig : ExportConfig :=
  { audioBuffer := silentBuffer, inTime := 0, outTime := 1/30,
    reactiveFrames := [], palette := [], intensityMultiplier := 1,
    options := { resolution := "1080x1920", format := "mp4" } }

/-- An ffmpeg oracle whose load and both exec attempts succeed. -/
def ffmpegAllOk : FfmpegEnv :=
  { loadOk := true, exec := fun _ _ _ => Except.ok (),
    readFile := fun _ _ _ => [9, 9] }

/-- An environment whose cancellation request is first observable at poll
index 4 - after the final poll of a one-frame run (polls 0, 1, 2, 3), that
is, while the pipeline is mid-transcoding. -/
def cexExportEnv : ExportEnv :=
  { cancelAt := some 4, recorderStartOk := true,
    recorderBlob := fun _ _ => [1, 2, 3], ffmpeg := ffmpegAllOk, now := 0 }

/-- An environment cancelling at poll 2 (the top of render frame 0). -/
def witnessCancelEnv : ExportEnv :=
  { cancelAt := some 2, recorderStartOk := true,
    recorderBlob := fun _ _ => [1, 2, 3], ffmpeg := ffmpegAllOk, now := 0 }

/-- An environment that never observes a cancellation request. -/
def witnessRunEnv : ExportEnv :=
  { cancelAt := none, recorderStartOk := true,
    recorderBlob := fun _ _ => [1, 2, 3], ffmpeg := ffmpegAllOk, now := 0 }

/-- A buffer is silent when every channel sample is zero. -/
def SilentBuffer (b : AudioBuffer) : Prop :=
  ∀ ch i, ch < b.numberOfChannels → b.channelData ch i = 0

/-- The zero-valued frame at output index `t`. -/
noncomputable def silentFrame (t : ℕ) : ReactiveFrame :=
  { time := (((t : ℚ) / FPS : ℚ) : ℝ), bass := 0, mid := 0, treble := 0, amplitude := 0 }

/-- `exp(θ·i)` for a real angle θ - the polar form used by the spectral
correctness argument. -/
noncomputable def cexp (θ : ℝ) : ℂ :=
  Complex.exp (θ * Complex.I)

/-- Closed form of the butterfly inner loop with iterations `j0, ..., half-1`
still to run: positions `[i+j0, i+half)` receive `v[p] + w^(p-i)·v[p+half]`,
positions `[i+half+j0, i+2·half)` receive `v[p-half] - w^(p-i-half)·v[p]`. -/
noncomputable def butterflied (half i : ℕ) (w : ℂ) (j0 : ℕ) (v : ℕ → ℂ) : ℕ → ℂ :=
  fun p =>
    if i + j0 ≤ p ∧ p < i + half then v p + w ^ (p - i) * v (p + half)
    else if i + half + j0 ≤ p ∧ p < i + half + half then
      v (p - half) - w ^ (p - i - half) * v p
    else v p

/-- One butterfly stage applied to every block from position `i0` on. -/
noncomputable def stageTransformFrom (n len : ℕ) (w : ℂ) (i0 : ℕ) (v : ℕ → ℂ) :
    ℕ → ℂ :=
  fun p =>
    if i0 ≤ p ∧ p < n then
      if p % len < len / 2 then v p + w ^ (p % len) * v (p + len / 2)
      else v (p - len / 2) - w ^ (p % len - len / 2) * v p
    else v p

/-- One full butterfly stage of block size `len`. -/
noncomputable def stageTransform (n len : ℕ) (w : ℂ) (v : ℕ → ℂ) : ℕ → ℂ :=
  stageTransformFrom n len w 0 v

/-- The first `s` butterfly stages (block sizes 2, 4, ..., 2^s). -/
noncomputable def applyStages (n : ℕ) (v : ℕ → ℂ) : ℕ → ℕ → ℂ
  | 0 => v
  | s + 1 => stageTransform n (2 ^ (s + 1)) (twiddle (2 ^ (s + 1))) (applyStages n v s)

/-- The expected array contents after `s` stages on a bit-reversed input of
length `2^m`: position `b·2^s + t` holds the `2^s`-point DFT, evaluated at
`t`, of the stride-`2^(m-s)` subsequence of the input starting at
`bitRev (m-s) b`. -/
noncomputable def stageSpec (m s : ℕ) (x : ℕ → ℂ) : ℕ → ℂ :=
  fun p =>
    ∑ u ∈ Finset.range (2 ^ s),
      x (u * 2 ^ (m - s) + bitRev (m - s) (p / 2 ^ s))
        * cexp (-2 * Real.pi / 2 ^ s) ^ (p % 2 ^ s * u)

/-! ## Frame-count lemmas -/

theorem framesLoop_length (b : AudioBuffer) (inTime : ℚ) :
    ∀ (cnt f : ℕ) (pB pM pT pA : ℝ),
      (framesLoop b inTime f cnt pB pM pT pA).length = cnt := by
  intro cnt
  induction cnt with
  | zero => intro f pB pM pT pA; rfl
  | succ n ih =>
    intro f pB pM pT pA
    simp only [framesLoop, List.length_cons, ih]

theorem rawFrames_length (b : AudioBuffer) (inTime outTime : ℚ) :
    (rawFrames b inTime outTime).length = analyzerTotalFrames inTime outTime := by
  unfold rawFrames
  exact framesLoop_length b inTime _ 0 0 0 0 0

theorem normalizedFrames_length (b : AudioBuffer) (inTime outTime : ℚ) :
    (normalizedFrames b inTime outTime).length = analyzerTotalFrames inTime outTime := by
  unfold normalizedFrames
  simp [rawFrames_length]

theorem buildReactiveFrames_length (b : AudioBuffer) (inTime outTime : ℚ) :
    (buildReactiveFrames b inTime outTime).length = analyzerTotalFrames inTime outTime := by
  unfold buildReactiveFrames
  by_cases h : preNormMaxAmp b inTime outTime < QUIET_THRESHOLD
  · simp [h, normalizedFrames_length]
  · simp [h, normalizedFrames_length]

/-- C1: for every audio buffer and valid clip range, the extracted frame
sequence has length exactly `ceil((outTime - inTime) * 30)`, and the export
orchestrator re-derives that same count from the same range. -/
theorem extraction_frame_count (b : AudioBuffer) (inTime outTime : ℚ)
    (h : ValidClipRange b inTime outTime) :
    (((buildReactiveFrames b inTime outTime).length : ℤ)
        = Int.ceil ((outTime - inTime) * 30))
      ∧ exportTotalFrames inTime outTime = (buildReactiveFrames b inTime outTime).length := by
  have hpos : (0 : ℚ) < (outTime - inTime) * 30 := by
    have h1 : 0 < outTime - inTime := by
      have := h.2.1
      linarith
    linarith
  have hceil : (0 : ℤ) ≤ Int.ceil ((outTime - inTime) * 30) :=
    le_of_lt (Int.ceil_pos.mpr hpos)
  constructor
  · rw [buildReactiveFrames_length]
    unfold analyzerTotalFrames FPS
    exact Int.toNat_of_nonneg hceil
  · rw [buildReactiveFrames_length]
    unfold analyzerTotalFrames exportTotalFrames FPS exportFPS
    rfl

/-- Witness for C1 at a concrete valid clip range over a silent buffer. -/
theorem extraction_frame_count_witness :
    ValidClipRange silentBuffer 0 1
      ∧ ((((buildReactiveFrames silentBuffer 0 1).length : ℤ)
            = Int.ceil (((1 : ℚ) - 0) * 30))
          ∧ exportTotalFrames 0 1 = (buildReactiveFrames silentBuffer 0 1).length) :=
  ⟨by norm_num [ValidClipRange, silentBuffer, AudioBuffer.duration],
   extraction_frame_count silentBuffer 0 1
     (by norm_num [ValidClipRange, silentBuffer, AudioBuffer.duration])⟩

/-- C2: the `ReactiveFrame` interface of src/types/project.ts requires the
beat-detector fields `kick`, `onset` and `kickIntensity`, but the object
literal produced by `buildReactiveFrames` carries none of them, and none of
the beat-detection constants of audioConstants.ts is imported by the
AudioAnalyzer. -/
theorem reactive_frame_beat_fields_missing :
    ("kick" ∈ reactiveFrameInterfaceFields ∧ "kick" ∉ builtFrameFields)
      ∧ ("onset" ∈ reactiveFrameInterfaceFields ∧ "onset" ∉ builtFrameFields)
      ∧ ("kickIntensity" ∈ reactiveFrameInterfaceFields
          ∧ "kickIntensity" ∉ builtFrameFields)
      ∧ (∀ c ∈ beatDetectionConstants, c ∉ audioAnalyzerImports) := by
  decide

/-- C4: the transcode fallback chain never escalates a failure: the primary
outcome is MP4 with no warning exactly when the engine loads and the MP4
exec succeeds; a failed primary path degrades to the WebM mux with a
non-empty warning; a failure of both paths, or of engine initialization,
returns the captured video bytes unchanged with a warning that audio was
dropped. Totality of `transcodeToMp4` is the "never raises" part. -/
theorem transcode_fallback_chain (env : FfmpegEnv) (v a : List ℕ) :
    ((transcodeToMp4 env v a).format
        = if env.loadOk && execOk (env.exec mp4Args v a) then "mp4" else "webm")
      ∧ ((transcodeToMp4 env v a).warning = none
          ↔ (env.loadOk && execOk (env.exec mp4Args v a)) = true)
      ∧ ((transcodeToMp4 env v a).blob
          = if env.loadOk && execOk (env.exec mp4Args v a) then
              env.readFile ("output.mp4") v a
            else if env.loadOk && execOk (env.exec webmArgs v a) then
              env.readFile ("output.webm") v a
            else v)
      ∧ ((transcodeToMp4 env v a).warning
          = if env.loadOk && execOk (env.exec mp4Args v a) then none
            else if env.loadOk && execOk (env.exec webmArgs v a) then
              some ("MP4 encoding unavailable. Exported as WebM instead.")
            else if env.loadOk then
              some ("Audio muxing failed. Video exported without audio.")
            else some ("FFmpeg unavailable. Video exported without audio.")) := by
  unfold transcodeToMp4
  rcases hload : env.loadOk with _ | _
  · simp [hload]
  · rcases hm : env.exec mp4Args v a with e | u
    · rcases hw : env.exec webmArgs v a with e2 | u2
      · simp [hload, hm, hw, execOk]
      · simp [hload, hm, hw, execOk]
    · simp [hload, hm, execOk]

/-! ## List indexing helpers -/

theorem byteAt_append_skip (A R : List ℕ) (k : ℕ) :
    byteAt (A ++ R) (A.length + k) = byteAt R k := by
  unfold byteAt
  rw [List.getD_append_right _ _ _ _ (Nat.le_add_right _ _)]
  congr 1
  omega

theorem readLE16_skip (A R : List ℕ) (k : ℕ) :
    readLE16 (A ++ R) (A.length + k) = readLE16 R k := by
  unfold readLE16
  rw [show A.length + k + 1 = A.length + (k + 1) by omega, byteAt_append_skip,
    byteAt_append_skip]

theorem flatMap_range_length (f : ℕ → List ℕ) (c : ℕ) (hc : ∀ i, (f i).length = c) :
    ∀ n, ((List.range n).flatMap f).length = n * c := by
  intro n
  induction n with
  | zero => simp
  | succ m ih =>
    rw [List.range_succ, List.flatMap_append]
    simp only [List.length_append, ih, List.flatMap_cons, List.flatMap_nil,
      List.append_nil, hc]
    ring

theorem flatMap_range_getD (f : ℕ → List ℕ) (c : ℕ) (hc : ∀ i, (f i).length = c) :
    ∀ (n i r : ℕ), i < n → r < c →
      ((List.range n).flatMap f).getD (i * c + r) 0 = (f i).getD r 0 := by
  intro n
  induction n with
  | zero => intro i r hi; omega
  | succ m ih =>
    intro i r hi hr
    rw [List.range_succ, List.flatMap_append]
    simp only [List.flatMap_cons, List.flatMap_nil, List.append_nil]
    rcases Nat.lt_or_ge i m with him | him
    · rw [List.getD_append]
      · exact ih i r him hr
      · rw [flatMap_range_length f c hc m]
        calc i * c + r < i * c + c := by omega
        _ = (i + 1) * c := by ring
        _ ≤ m * c := Nat.mul_le_mul_right c him
    · have him2 : i = m := by omega
      subst him2
      rw [List.getD_append_right]
      · rw [flatMap_range_length f c hc i]
        congr 1
        omega
      · rw [flatMap_range_length f c hc i]
        exact Nat.le_add_right _ _

/-! ## WAV container structure lemmas -/

set_option maxHeartbeats 1600000 in
theorem extract_as_template (b : AudioBuffer) (inTime outTime : ℚ) :
    extractAudioSegment b inTime outTime
      = wavTemplate (44 + segmentLength b inTime outTime * b.numberOfChannels * 2 - 8)
          b.numberOfChannels (toUint32 b.sampleRate)
          (toUint32 (b.sampleRate * b.numberOfChannels * 2))
          (b.numberOfChannels * 2)
          (segmentLength b inTime outTime * b.numberOfChannels * 2)
          (wavData b inTime outTime) := rfl

theorem wavTemplate_split (cs c s br ba ds : ℕ) (P : List ℕ) :
    wavTemplate cs c s br ba ds P = wavTemplate cs c s br ba ds [] ++ P := by
  simp [wavTemplate]

theorem wavTemplate_hdr_length (cs c s br ba ds : ℕ) :
    (wavTemplate cs c s br ba ds []).length = 44 := rfl

theorem wavTemplate_length (cs c s br ba ds : ℕ) (P : List ℕ) :
    (wavTemplate cs c s br ba ds P).length = 44 + P.length := by
  rw [wavTemplate_split, List.length_append, wavTemplate_hdr_length]

theorem wavTemplate_read0 (cs c s br ba ds : ℕ) (P : List ℕ) :
    readLE32 (wavTemplate cs c s br ba ds P) 0 = 1179011410 := by
  have h0 : byteAt (wavTemplate cs c s br ba ds P) 0 = 82 := rfl
  have h1 : byteAt (wavTemplate cs c s br ba ds P) (0 + 1) = 73 := rfl
  have h2 : byteAt (wavTemplate cs c s br ba ds P) (0 + 2) = 70 := rfl
  have h3 : byteAt (wavTemplate cs c s br ba ds P) (0 + 3) = 70 := rfl
  unfold readLE32
  rw [h0, h1, h2, h3]
  norm_num

theorem wavTemplate_read4 (cs c s br ba ds : ℕ) (P : List ℕ) :
    readLE32 (wavTemplate cs c s br ba ds P) 4 = cs % 4294967296 := by
  have h0 : byteAt (wavTemplate cs c s br ba ds P) 4 = cs % 256 := rfl
  have h1 : byteAt (wavTemplate cs c s br ba ds P) (4 + 1) = cs / 256 % 256 := rfl
  have h2 : byteAt (wavTemplate cs c s br ba ds P) (4 + 2) = cs / 2 ^ 16 % 256 := rfl
  have h3 : byteAt (wavTemplate cs c s br ba ds P) (4 + 3) = cs / 2 ^ 24 % 256 := rfl
  unfold readLE32
  rw [h0, h1, h2, h3]
  omega

theorem wavTemplate_read8 (cs c s br ba ds : ℕ) (P : List ℕ) :
    readLE32 (wavTemplate cs c s br ba ds P) 8 = 1163280727 := by
  have h0 : byteAt (wavTemplate cs c s br ba ds P) 8 = 87 := rfl
  have h1 : byteAt (wavTemplate cs c s br ba ds P) (8 + 1) = 65 := rfl
  have h2 : byteAt (wavTemplate cs c s br ba ds P) (8 + 2) = 86 := rfl
  have h3 : byteAt (wavTemplate cs c s br ba ds P) (8 + 3) = 69 := rfl
  unfold readLE32
  rw [h0, h1, h2, h3]
  norm_num

theorem wavTemplate_read12 (cs c s br ba ds : ℕ) (P : List ℕ) :
    readLE32 (wavTemplate cs c s br ba ds P) 12 = 544501094 := by
  have h0 : byteAt (wavTemplate cs c s br ba ds P) 12 = 102 := rfl
  have h1 : byteAt (wavTemplate cs c s br ba ds P) (12 + 1) = 109 := rfl
  have h2 : byteAt (wavTemplate cs c s br ba ds P) (12 + 2) = 116 := rfl
  have h3 : byteAt (wavTemplate cs c s br ba ds P) (12 + 3) = 32 := rfl
  unfold readLE32
  rw [h0, h1, h2, h3]
  norm_num

theorem wavTemplate_read16 (cs c s br ba ds : ℕ) (P : List ℕ) :
    readLE32 (wavTemplate cs c s br ba ds P) 16 = 16 := rfl

theorem wavTemplate_read20 (cs c s br ba ds : ℕ) (P : List ℕ) :
    readLE16 (wavTemplate cs c s br ba ds P) 20 = 1 := rfl

theorem wavTemplate_read22 (cs c s br ba ds : ℕ) (P : List ℕ) :
    readLE16 (wavTemplate cs c s br ba ds P) 22 = c % 65536 := by
  have h0 : byteAt (wavTemplate cs c s br ba ds P) 22 = c % 256 := rfl
  have h1 : byteAt (wavTemplate cs c s br ba ds P) (22 + 1) = c / 256 % 256 := rfl
  unfold readLE16
  rw [h0, h1]
  omega

theorem wavTemplate_read24 (cs c s br ba ds : ℕ) (P : List ℕ) :
    readLE32 (wavTemplate cs c s br ba ds P) 24 = s % 4294967296 := by
  have h0 : byteAt (wavTemplate cs c s br ba ds P) 24 = s % 256 := rfl
  have h1 : byteAt (wavTemplate cs c s br ba ds P) (24 + 1) = s / 256 % 256 := rfl
  have h2 : byteAt (wavTemplate cs c s br ba ds P) (24 + 2) = s / 2 ^ 16 % 256 := rfl
  have h3 : byteAt (wavTemplate cs c s br ba ds P) (24 + 3) = s / 2 ^ 24 % 256 := rfl
  unfold readLE32
  rw [h0, h1, h2, h3]
  omega

theorem wavTemplate_read28 (cs c s br ba ds : ℕ) (P : List ℕ) :
    readLE32 (wavTemplate cs c s br ba ds P) 28 = br % 4294967296 := by
  have h0 : byteAt (wavTemplate cs c s br ba ds P) 28 = br % 256 := rfl
  have h1 : byteAt (wavTemplate cs c s br ba ds P) (28 + 1) = br / 256 % 256 := rfl
  have h2 : byteAt (wavTemplate cs c s br ba ds P) (28 + 2) = br / 2 ^ 16 % 256 := rfl
  have h3 : byteAt (wavTemplate cs c s br ba ds P) (28 + 3) = br / 2 ^ 24 % 256 := rfl
  unfold readLE32
  rw [h0, h1, h2, h3]
  omega

theorem wavTemplate_read32 (cs c s br ba ds : ℕ) (P : List ℕ) :
    readLE16 (wavTemplate cs c s br ba ds P) 32 = ba % 65536 := by
  have h0 : byteAt (wavTemplate cs c s br ba ds P) 32 = ba % 256 := rfl
  have h1 : byteAt (wavTemplate cs c s br ba ds P) (32 + 1) = ba / 256 % 256 := rfl
  unfold readLE16
  rw [h0, h1]
  omega

theorem wavTemplate_read34 (cs c s br ba ds : ℕ) (P : List ℕ) :
    readLE16 (wavTemplate cs c s br ba ds P) 34 = 16 := rfl

theorem wavTemplate_read36 (cs c s br ba ds : ℕ) (P : List ℕ) :
    readLE32 (wavTemplate cs c s br ba ds P) 36 = 1635017060 := by
  have h0 : byteAt (wavTemplate cs c s br ba ds P) 36 = 100 := rfl
  have h1 : byteAt (wavTemplate cs c s br ba ds P) (36 + 1) = 97 := rfl
  have h2 : byteAt (wavTemplate cs c s br ba ds P) (36 + 2) = 116 := rfl
  have h3 : byteAt (wavTemplate cs c s br ba ds P) (36 + 3) = 97 := rfl
  unfold readLE32
  rw [h0, h1, h2, h3]
  norm_num

theorem wavTemplate_read40 (cs c s br ba ds : ℕ) (P : List ℕ) :
    readLE32 (wavTemplate cs c s br ba ds P) 40 = ds % 4294967296 := by
  have h0 : byteAt (wavTemplate cs c s br ba ds P) 40 = ds % 256 := rfl
  have h1 : byteAt (wavTemplate cs c s br ba ds P) (40 + 1) = ds / 256 % 256 := rfl
  have h2 : byteAt (wavTemplate cs c s br ba ds P) (40 + 2) = ds / 2 ^ 16 % 256 := rfl
  have h3 : byteAt (wavTemplate cs c s br ba ds P) (40 + 3) = ds / 2 ^ 24 % 256 := rfl
  unfold readLE32
  rw [h0, h1, h2, h3]
  omega

theorem wavTemplate_readData (cs c s br ba ds : ℕ) (P : List ℕ) (k : ℕ) :
    readLE16 (wavTemplate cs c s br ba ds P) (44 + k) = readLE16 P k := by
  rw [wavTemplate_split]
  have h := readLE16_skip (wavTemplate cs c s br ba ds []) P k
  rw [wavTemplate_hdr_length] at h
  exact h

theorem sampleBytes_length (s : ℚ) : (sampleBytes s).length = 2 := rfl

theorem wavData_length (b : AudioBuffer) (inTime outTime : ℚ) :
    (wavData b inTime outTime).length
      = segmentLength b inTime outTime * (b.numberOfChannels * 2) := by
  unfold wavData
  rw [flatMap_range_length _ (b.numberOfChannels * 2)]
  intro i
  rw [flatMap_range_length _ 2]
  intro ch
  exact sampleBytes_length _

theorem extract_length (b : AudioBuffer) (inTime outTime : ℚ) :
    (extractAudioSegment b inTime outTime).length
      = 44 + segmentLength b inTime outTime * b.numberOfChannels * 2 := by
  rw [extract_as_template, wavTemplate_length, wavData_length]
  ring

theorem toUint32_natCast (n : ℕ) (h : n < 2 ^ 32) : toUint32 (n : ℚ) = n := by
  unfold toUint32 jsTrunc
  rw [if_neg (not_lt.mpr (by exact_mod_cast Nat.zero_le n)), Int.floor_natCast,
    Int.emod_eq_of_lt (by exact_mod_cast Nat.zero_le n) (by exact_mod_cast h)]
  exact Int.toNat_natCast n

/-- The quantized value of any sample fits a signed 16-bit integer: the
clamp to `[-1, 1]` prevents overflow. -/
theorem quantizeSample_range (s : ℚ) :
    -32768 ≤ quantizeSample s ∧ quantizeSample s ≤ 32767 := by
  unfold quantizeSample clampSample jsTrunc
  set c := max (-1 : ℚ) (min 1 s) with hc
  have hc1 : -1 ≤ c := le_max_left _ _
  have hc2 : c ≤ 1 := max_le (by norm_num) (min_le_left _ _)
  by_cases hneg : c < 0
  · rw [if_pos hneg, if_pos (by nlinarith : c * 32768 < 0)]
    have h1 : Int.floor (-(c * 32768)) ≤ 32768 := by
      have h2 := Int.floor_le_floor (α := ℚ) (show -(c * 32768) ≤ 32768 by nlinarith)
      norm_num at h2
      exact h2
    have h3 : (0 : ℤ) ≤ Int.floor (-(c * 32768)) := by
      apply Int.le_floor.mpr
      push_cast
      nlinarith
    constructor <;> omega
  · push_neg at hneg
    rw [if_neg (not_lt.mpr hneg), if_neg (not_lt.mpr (by nlinarith : (0:ℚ) ≤ c * 32767))]
    have h1 : Int.floor (c * 32767) ≤ 32767 := by
      have h2 := Int.floor_le_floor (α := ℚ) (show c * 32767 ≤ 32767 by nlinarith)
      norm_num at h2
      exact h2
    have h3 : (0 : ℤ) ≤ Int.floor (c * 32767) := by
      apply Int.le_floor.mpr
      push_cast
      nlinarith
    constructor <;> omega

/-- The PCM16 word stored for one sample, read back as an unsigned
little-endian word from the payload of the container. -/
theorem wavData_word (b : AudioBuffer) (inTime outTime : ℚ) (i ch : ℕ)
    (hi : i < segmentLength b inTime outTime) (hch : ch < b.numberOfChannels) :
    readLE16 (wavData b inTime outTime) (2 * (i * b.numberOfChannels + ch))
      = ((quantizeSample (sampleAt b ch (startSampleOf b inTime + i)) % 65536).toNat) := by
  have hlen2 : ∀ j : ℕ, ((List.range b.numberOfChannels).flatMap fun c2 =>
      sampleBytes (sampleAt b c2 (startSampleOf b inTime + (j : ℤ)))).length
        = b.numberOfChannels * 2 := by
    intro j
    rw [flatMap_range_length _ 2]
    intro c2
    exact sampleBytes_length _
  set w : ℕ := (quantizeSample (sampleAt b ch (startSampleOf b inTime + i)) % 65536).toNat
    with hw
  have hw16 : w < 65536 := by
    rw [hw]
    have : quantizeSample (sampleAt b ch (startSampleOf b inTime + i)) % 65536 < 65536 :=
      Int.emod_lt_of_pos _ (by norm_num)
    omega
  have hb0 : byteAt (wavData b inTime outTime) (i * (b.numberOfChannels * 2) + (2 * ch))
      = w % 256 := by
    unfold wavData byteAt
    rw [flatMap_range_getD _ _ hlen2 _ i (2 * ch) hi (by omega)]
    rw [show 2 * ch = ch * 2 + 0 by ring,
      flatMap_range_getD _ 2 (fun _ => sampleBytes_length _) _ ch 0 hch (by omega)]
    rw [hw]
    rfl
  have hb1 : byteAt (wavData b inTime outTime) (i * (b.numberOfChannels * 2) + (2 * ch + 1))
      = w / 256 % 256 := by
    unfold wavData byteAt
    rw [flatMap_range_getD _ _ hlen2 _ i (2 * ch + 1) hi (by omega)]
    rw [show 2 * ch + 1 = ch * 2 + 1 by ring,
      flatMap_range_getD _ 2 (fun _ => sampleBytes_length _) _ ch 1 hch (by omega)]
    rw [hw]
    rfl
  unfold readLE16
  rw [show 2 * (i * b.numberOfChannels + ch) = i * (b.numberOfChannels * 2) + 2 * ch
      by ring, hb0,
    show i * (b.numberOfChannels * 2) + 2 * ch + 1
        = i * (b.numberOfChannels * 2) + (2 * ch + 1) by ring, hb1]
  omega

/-- C6 (amended: the covered sample range is
`[floor(inTime*sampleRate), floor(outTime*sampleRate))` - the source uses
`Math.floor`, not rounding): `extractAudioSegment` produces a RIFF/WAVE
16-bit PCM container with the standard 44-byte header (ChunkSize,
NumChannels, SampleRate, ByteRate, BlockAlign, BitsPerSample = 16) followed
by the interleaved little-endian samples of exactly that floored range. -/
theorem wav_layout (b : AudioBuffer) (inTime outTime : ℚ) (sr i ch : ℕ)
    (hva : ValidClipRange b inTime outTime)
    (hsr : b.sampleRate = (sr : ℚ)) (hsr32 : sr < 2 ^ 32)
    (hch16 : 2 * b.numberOfChannels < 65536)
    (hbr : sr * b.numberOfChannels * 2 < 2 ^ 32)
    (hsz : 36 + segmentLength b inTime outTime * b.numberOfChannels * 2 < 4294967296)
    (hi : i < segmentLength b inTime outTime) (hch : ch < b.numberOfChannels) :
    ((segmentLength b inTime outTime : ℤ)
        = Int.floor (outTime * b.sampleRate) - Int.floor (inTime * b.sampleRate))
    ∧ (extractAudioSegment b inTime outTime).length
        = 44 + segmentLength b inTime outTime * b.numberOfChannels * 2
    ∧ readLE32 (extractAudioSegment b inTime outTime) 0 = 1179011410
    ∧ readLE32 (extractAudioSegment b inTime outTime) 4
        = 36 + segmentLength b inTime outTime * b.numberOfChannels * 2
    ∧ readLE32 (extractAudioSegment b inTime outTime) 8 = 1163280727
    ∧ readLE32 (extractAudioSegment b inTime outTime) 12 = 544501094
    ∧ readLE32 (extractAudioSegment b inTime outTime) 16 = 16
    ∧ readLE16 (extractAudioSegment b inTime outTime) 20 = 1
    ∧ readLE16 (extractAudioSegment b inTime outTime) 22 = b.numberOfChannels
    ∧ readLE32 (extractAudioSegment b inTime outTime) 24 = sr
    ∧ readLE32 (extractAudioSegment b inTime outTime) 28 = sr * b.numberOfChannels * 2
    ∧ readLE16 (extractAudioSegment b inTime outTime) 32 = b.numberOfChannels * 2
    ∧ readLE16 (extractAudioSegment b inTime outTime) 34 = 16
    ∧ readLE32 (extractAudioSegment b inTime outTime) 36 = 1635017060
    ∧ readLE32 (extractAudioSegment b inTime outTime) 40
        = segmentLength b inTime outTime * b.numberOfChannels * 2
    ∧ readLE16 (extractAudioSegment b inTime outTime) (44 + 2 * (i * b.numberOfChannels + ch))
        = ((quantizeSample (sampleAt b ch (Int.floor (inTime * b.sampleRate) + i))
            % 65536).toNat) := by
  have hfloor : Int.floor (inTime * b.sampleRate) ≤ Int.floor (outTime * b.sampleRate) := by
    apply Int.floor_le_floor
    have hio : inTime ≤ outTime := le_of_lt hva.2.1
    have hsr0 : (0 : ℚ) ≤ b.sampleRate := by
      rw [hsr]
      exact_mod_cast Nat.zero_le sr
    exact mul_le_mul_of_nonneg_right hio hsr0
  have ht : toUint32 b.sampleRate = sr := by
    rw [hsr]
    exact toUint32_natCast sr hsr32
  have ht2 : toUint32 (b.sampleRate * b.numberOfChannels * 2)
      = sr * b.numberOfChannels * 2 := by
    rw [hsr, show ((sr : ℚ) * b.numberOfChannels * 2)
        = ((sr * b.numberOfChannels * 2 : ℕ) : ℚ) by push_cast; ring]
    exact toUint32_natCast _ hbr
  refine ⟨?_, extract_length b inTime outTime, ?_, ?_, ?_, ?_, ?_, ?_, ?_, ?_, ?_, ?_,
    ?_, ?_, ?_, ?_⟩
  · unfold segmentLength
    omega
  · rw [extract_as_template]
    exact wavTemplate_read0 _ _ _ _ _ _ _
  · rw [extract_as_template, wavTemplate_read4]
    omega
  · rw [extract_as_template]
    exact wavTemplate_read8 _ _ _ _ _ _ _
  · rw [extract_as_template]
    exact wavTemplate_read12 _ _ _ _ _ _ _
  · rw [extract_as_template]
    exact wavTemplate_read16 _ _ _ _ _ _ _
  · rw [extract_as_template]
    exact wavTemplate_read20 _ _ _ _ _ _ _
  · rw [extract_as_template, wavTemplate_read22]
    omega
  · rw [extract_as_template, wavTemplate_read24, ht]
    omega
  · rw [extract_as_template, wavTemplate_read28, ht2]
    omega
  · rw [extract_as_template, wavTemplate_read32]
    omega
  · rw [extract_as_template]
    exact wavTemplate_read34 _ _ _ _ _ _ _
  · rw [extract_as_template]
    exact wavTemplate_read36 _ _ _ _ _ _ _
  · rw [extract_as_template, wavTemplate_read40]
    omega
  · rw [extract_as_template, wavTemplate_readData]
    have hw := wavData_word b inTime outTime i ch hi hch
    unfold startSampleOf at hw
    exact hw

/-- C6 counterexample: at `inTime = 3/4` over the 2 Hz demo buffer,
`inTime * sampleRate = 1.5`: the source floors it to sample index 1, while
the claimed rounding would give index 2; the first data word of the
container encodes sample 1 (value 1/10, word 3276), not the sample at the
rounded index (value 1/5, word 6553). -/
theorem wav_round_counterexample :
    Int.floor ((3/4 : ℚ) * cexBuffer.sampleRate) = 1
    ∧ jsRound ((3/4 : ℚ) * cexBuffer.sampleRate) = 2
    ∧ readLE16 (extractAudioSegment cexBuffer (3/4) (7/4)) 44 = 3276
    ∧ ((quantizeSample (sampleAt cexBuffer 0 (jsRound ((3/4 : ℚ) * cexBuffer.sampleRate)))
        % 65536).toNat) = 6553
    ∧ readLE16 (extractAudioSegment cexBuffer (3/4) (7/4)) 44
        ≠ ((quantizeSample (sampleAt cexBuffer 0
            (jsRound ((3/4 : ℚ) * cexBuffer.sampleRate))) % 65536).toNat) := by
  have hfl : Int.floor ((3/4 : ℚ) * cexBuffer.sampleRate) = 1 := by
    norm_num [cexBuffer]
  have hrd : jsRound ((3/4 : ℚ) * cexBuffer.sampleRate) = 2 := by
    norm_num [jsRound, cexBuffer]
  have hseg : segmentLength cexBuffer (3/4) (7/4) = 2 := by
    norm_num [segmentLength, cexBuffer]
    decide
  have hword := wavData_word cexBuffer (3/4) (7/4) 0 0 (by rw [hseg]; norm_num)
    (by norm_num [cexBuffer])
  have hstart : startSampleOf cexBuffer (3/4) = 1 := by
    norm_num [startSampleOf, cexBuffer]
  rw [hstart] at hword
  norm_num at hword
  have hs1 : sampleAt cexBuffer 0 1 = 1/10 := by
    norm_num [sampleAt, cexBuffer]
  have hq1 : quantizeSample ((1 : ℚ)/10) = 3276 := by
    norm_num [quantizeSample, clampSample, jsTrunc, min_def, max_def]
  rw [hs1, hq1] at hword
  norm_num at hword
  have h44 : readLE16 (extractAudioSegment cexBuffer (3/4) (7/4)) 44 = 3276 := by
    rw [show (44 : ℕ) = 44 + 0 from rfl, extract_as_template, wavTemplate_readData]
    rw [show (0 : ℕ) = 2 * (0 * cexBuffer.numberOfChannels + 0) by norm_num [cexBuffer]]
    exact hword
  have hs2 : sampleAt cexBuffer 0 2 = 1/5 := by
    norm_num [sampleAt, cexBuffer]
    rw [show Int.toNat 2 = 2 from rfl]
    norm_num
  have hq2 : quantizeSample ((1 : ℚ)/5) = 6553 := by
    norm_num [quantizeSample, clampSample, jsTrunc, min_def, max_def]
  have hrenc : ((quantizeSample (sampleAt cexBuffer 0
      (jsRound ((3/4 : ℚ) * cexBuffer.sampleRate))) % 65536).toNat) = 6553 := by
    rw [hrd, hs2, hq2]
    decide
  refine ⟨hfl, hrd, h44, hrenc, ?_⟩
  rw [h44, hrenc]
  norm_num

/-- Witness for the amended C6 layout theorem at a concrete buffer and
clip range. -/
theorem wav_layout_witness :
    readLE16 (extractAudioSegment witnessBuffer 0 2) 22 = witnessBuffer.numberOfChannels
    ∧ readLE16 (extractAudioSegment witnessBuffer 0 2)
        (44 + 2 * (0 * witnessBuffer.numberOfChannels + 0))
      = ((quantizeSample (sampleAt witnessBuffer 0
          (Int.floor ((0 : ℚ) * witnessBuffer.sampleRate) + 0)) % 65536).toNat) := by
  have h := wav_layout witnessBuffer 0 2 1 0 0
    (by norm_num [ValidClipRange, witnessBuffer, AudioBuffer.duration])
    (by norm_num [witnessBuffer])
    (by norm_num)
    (by norm_num [witnessBuffer])
    (by norm_num [witnessBuffer])
    (by norm_num [segmentLength, witnessBuffer]; decide)
    (by norm_num [segmentLength, witnessBuffer, Int.toNat_ofNat])
    (by norm_num [witnessBuffer])
  exact ⟨h.2.2.2.2.2.2.2.2.1, h.2.2.2.2.2.2.2.2.2.2.2.2.2.2.2⟩

/-! ## PCM16 round-trip lemmas (claim C7) -/

theorem int16_word_roundtrip (q : ℤ) (h1 : -32768 ≤ q) (h2 : q ≤ 32767) :
    (if ((q % 65536).toNat) < 32768 then (((q % 65536).toNat : ℕ) : ℤ)
     else (((q % 65536).toNat : ℕ) : ℤ) - 65536) = q := by
  split <;> omega

theorem quant_error (s : ℚ) :
    |decodePcm16 (quantizeSample s) - clampSample s| ≤ 1 / 32767 := by
  unfold decodePcm16 quantizeSample clampSample jsTrunc
  set c := max (-1 : ℚ) (min 1 s) with hcdef
  have hc1 : -1 ≤ c := le_max_left _ _
  have hc2 : c ≤ 1 := max_le (by norm_num) (min_le_left _ _)
  by_cases hneg : c < 0
  · rw [if_pos hneg, if_pos (by nlinarith : c * 32768 < 0)]
    have hm0 : (0 : ℤ) ≤ Int.floor (-(c * 32768)) :=
      Int.le_floor.mpr (by push_cast; nlinarith)
    have hmle : ((Int.floor (-(c * 32768)) : ℤ) : ℚ) ≤ -(c * 32768) := Int.floor_le _
    have hmgt : -(c * 32768) < (Int.floor (-(c * 32768)) : ℤ) + 1 :=
      Int.lt_floor_add_one _
    by_cases hmz : -Int.floor (-(c * 32768)) < 0
    · rw [if_pos hmz, abs_le]
      push_cast
      constructor <;> nlinarith
    · have hmz2 : Int.floor (-(c * 32768)) = 0 := by omega
      rw [if_neg hmz, hmz2, abs_le]
      rw [hmz2] at hmle hmgt
      push_cast at hmle hmgt ⊢
      constructor <;> nlinarith
  · push_neg at hneg
    rw [if_neg (not_lt.mpr hneg), if_neg (not_lt.mpr (by nlinarith : (0:ℚ) ≤ c * 32767))]
    have hm0 : (0 : ℤ) ≤ Int.floor (c * 32767) :=
      Int.le_floor.mpr (by push_cast; nlinarith)
    have hmle : ((Int.floor (c * 32767) : ℤ) : ℚ) ≤ c * 32767 := Int.floor_le _
    have hmgt : c * 32767 < (Int.floor (c * 32767) : ℤ) + 1 := Int.lt_floor_add_one _
    rw [if_neg (not_lt.mpr hm0), abs_le]
    constructor <;> nlinarith

/-- C7: decoding the container bytes reproduces each sample of the floored
range within 16-bit quantization error (1/32767), the sample having first
been clamped to `[-1, 1]`; the quantized value always fits a signed 16-bit
integer, so no overflow occurs on clipped input. -/
theorem pcm_roundtrip (b : AudioBuffer) (inTime outTime : ℚ) (i ch : ℕ)
    (hi : i < segmentLength b inTime outTime) (hch : ch < b.numberOfChannels) :
    |decodePcm16 (readInt16 (extractAudioSegment b inTime outTime)
        (44 + 2 * (i * b.numberOfChannels + ch)))
      - clampSample (sampleAt b ch (startSampleOf b inTime + i))| ≤ 1 / 32767
    ∧ -32768 ≤ quantizeSample (sampleAt b ch (startSampleOf b inTime + i))
    ∧ quantizeSample (sampleAt b ch (startSampleOf b inTime + i)) ≤ 32767 := by
  have hrange := quantizeSample_range (sampleAt b ch (startSampleOf b inTime + i))
  have hword : readLE16 (extractAudioSegment b inTime outTime)
      (44 + 2 * (i * b.numberOfChannels + ch))
      = ((quantizeSample (sampleAt b ch (startSampleOf b inTime + i)) % 65536).toNat) := by
    rw [extract_as_template, wavTemplate_readData]
    exact wavData_word b inTime outTime i ch hi hch
  have hdec : readInt16 (extractAudioSegment b inTime outTime)
      (44 + 2 * (i * b.numberOfChannels + ch))
      = quantizeSample (sampleAt b ch (startSampleOf b inTime + i)) := by
    unfold readInt16
    rw [hword]
    exact int16_word_roundtrip _ hrange.1 hrange.2
  rw [hdec]
  exact ⟨quant_error _, hrange.1, hrange.2⟩

/-- Witness for C7 at the demo buffer whose second sample is clipped
below -1. -/
theorem pcm_roundtrip_witness :
    |decodePcm16 (readInt16 (extractAudioSegment witnessBuffer 0 2)
        (44 + 2 * (1 * witnessBuffer.numberOfChannels + 0)))
      - clampSample (sampleAt witnessBuffer 0 (startSampleOf witnessBuffer 0 + 1))|
        ≤ 1 / 32767
    ∧ -32768 ≤ quantizeSample (sampleAt witnessBuffer 0 (startSampleOf witnessBuffer 0 + 1))
    ∧ quantizeSample (sampleAt witnessBuffer 0 (startSampleOf witnessBuffer 0 + 1))
        ≤ 32767 :=
  pcm_roundtrip witnessBuffer 0 2 1 0
    (by norm_num [segmentLength, witnessBuffer]) (by norm_num [witnessBuffer])

/-! ## Export pipeline path lemmas -/

theorem findRenderCancel_none (env : ExportEnv) :
    ∀ (rem f : ℕ), (∀ t, t < rem → cancelHit env (2 + f + t) = false) →
      findRenderCancel env f rem = none := by
  intro rem
  induction rem with
  | zero => intro f _; rfl
  | succ r ih =>
    intro f hall
    have h0 : cancelHit env (2 + f) = false := by
      have := hall 0 (by omega)
      simpa using this
    show (if cancelHit env (2 + f) then some f else findRenderCancel env (f + 1) r) = none
    rw [h0]
    simp only [Bool.false_eq_true, if_false]
    apply ih
    intro t ht
    have := hall (t + 1) (by omega)
    rw [show 2 + (f + 1) + t = 2 + f + (t + 1) by omega]
    exact this

theorem findRenderCancel_isSome (env : ExportEnv) :
    ∀ (rem f t : ℕ), t < rem → cancelHit env (2 + f + t) = true →
      (findRenderCancel env f rem).isSome = true := by
  intro rem
  induction rem with
  | zero => intro f t ht; omega
  | succ r ih =>
    intro f t ht hhit
    show (if cancelHit env (2 + f) then some f else findRenderCancel env (f + 1) r).isSome
      = true
    by_cases h0 : cancelHit env (2 + f) = true
    · rw [h0]
      rfl
    · have h0f : cancelHit env (2 + f) = false := Bool.eq_false_iff.mpr h0
      rw [h0f]
      simp only [Bool.false_eq_true, if_false]
      have ht0 : t ≠ 0 := by
        rintro rfl
        rw [show 2 + f + 0 = 2 + f by omega] at hhit
        rw [hhit] at h0f
        cases h0f
      apply ih (f + 1) (t - 1) (by omega)
      rw [show 2 + (f + 1) + (t - 1) = 2 + f + t by omega]
      exact hhit

theorem runExport_cancel0 (config : ExportConfig) (env : ExportEnv)
    (h0 : cancelHit env 0 = true) :
    runExport config env = (ExportOutcome.thrown ("Export cancelled"), resLogNothing) := by
  unfold runExport
  rw [h0]
  simp

theorem runExport_cancel1 (config : ExportConfig) (env : ExportEnv)
    (h0 : cancelHit env 0 = false) (h1 : cancelHit env 1 = true) :
    runExport config env = (ExportOutcome.thrown ("Export cancelled"), resLogPrepared) := by
  unfold runExport
  rw [h0, h1]
  simp

theorem runExport_cancelRender (config : ExportConfig) (env : ExportEnv)
    (h0 : cancelHit env 0 = false) (h1 : cancelHit env 1 = false)
    (hrec : env.recorderStartOk = true) (r : ℕ)
    (hfind : findRenderCancel env 0 (exportTotalFrames config.inTime config.outTime)
      = some r) :
    runExport config env = (ExportOutcome.thrown ("Export cancelled"), resLogAll) := by
  unfold runExport
  simp [h0, h1, hrec, hfind]

theorem runExport_cancelPostStop (config : ExportConfig) (env : ExportEnv)
    (h0 : cancelHit env 0 = false) (h1 : cancelHit env 1 = false)
    (hrec : env.recorderStartOk = true)
    (hfind : findRenderCancel env 0 (exportTotalFrames config.inTime config.outTime)
      = none)
    (hpost : cancelHit env (2 + exportTotalFrames config.inTime config.outTime) = true) :
    runExport config env = (ExportOutcome.thrown ("Export cancelled"), resLogAll) := by
  unfold runExport
  simp [h0, h1, hrec, hfind, hpost]

theorem runExport_complete (config : ExportConfig) (env : ExportEnv)
    (h0 : cancelHit env 0 = false) (h1 : cancelHit env 1 = false)
    (hrec : env.recorderStartOk = true)
    (hfind : findRenderCancel env 0 (exportTotalFrames config.inTime config.outTime)
      = none)
    (hpost : cancelHit env (2 + exportTotalFrames config.inTime config.outTime) = false) :
    runExport config env
      = (ExportOutcome.done (exportDoneResult config env), resLogAll) := by
  unfold runExport exportDoneResult
  simp [h0, h1, hrec, hfind, hpost]

/-- C3 (amended: a cancellation request observed at any of the polls - poll 0
before resources exist, poll 1 after audio extraction, the top of any render
frame, or the post-recording check - terminates the run in the distinguished
cancelled outcome, never done or error, with the recorder aborted and every
created resource disposed; a request that arrives after the final poll, that
is during the transcode await, is never polled again and the run completes).
The useExport hook identifies the cancelled outcome by its thrown message. -/
theorem export_cancellation (config : ExportConfig) (env : ExportEnv) (c : ℕ)
    (hc : env.cancelAt = some c)
    (hobs : c ≤ 1 ∨ (env.recorderStartOk = true
        ∧ c ≤ 2 + exportTotalFrames config.inTime config.outTime)) :
    useExportTerminal (runExport config env).1 = TerminalState.cancelledReset
      ∧ ((runExport config env).2).balanced = true := by
  have hch : ∀ k, cancelHit env k = decide (c ≤ k) := by
    intro k
    simp [cancelHit, hc]
  by_cases hc0 : c = 0
  · rw [runExport_cancel0 config env (by rw [hch]; subst hc0; rfl)]
    constructor <;> rfl
  · by_cases hc1 : c = 1
    · rw [runExport_cancel1 config env (by rw [hch]; subst hc1; rfl)
        (by rw [hch]; subst hc1; rfl)]
      constructor <;> rfl
    · have hc2 : 2 ≤ c := by omega
      rcases hobs with hle1 | ⟨hrec, hle⟩
      · omega
      · have h0 : cancelHit env 0 = false := by
          rw [hch]
          simp
          omega
        have h1 : cancelHit env 1 = false := by
          rw [hch]
          simp
          omega
        by_cases hmid : c ≤ 1 + exportTotalFrames config.inTime config.outTime
        · have hsome : (findRenderCancel env 0
              (exportTotalFrames config.inTime config.outTime)).isSome = true := by
            apply findRenderCancel_isSome env _ 0 (c - 2) (by omega)
            rw [hch]
            simp only [decide_eq_true_eq]
            omega
          rcases Option.isSome_iff_exists.mp hsome with ⟨r, hr⟩
          rw [runExport_cancelRender config env h0 h1 hrec r hr]
          constructor <;> rfl
        · have hcexact : c = 2 + exportTotalFrames config.inTime config.outTime := by
            omega
          have hnone : findRenderCancel env 0
              (exportTotalFrames config.inTime config.outTime) = none := by
            apply findRenderCancel_none
            intro t ht
            rw [hch]
            simp only [decide_eq_false_iff_not]
            omega
          rw [runExport_cancelPostStop config env h0 h1 hrec hnone
            (by rw [hch]; simp only [decide_eq_true_eq]; omega)]
          constructor <;> rfl

/-- C3 counterexample: with one render frame the polls are 0, 1, 2 and 3; a
cancellation request first observable at index 4 arrives while the pipeline
is mid-transcoding (after the final poll, during the transcode await), yet
the run completes in the done outcome - the source never re-checks the flag
after the transcode await. -/
theorem export_cancel_mid_transcode_ignored :
    cexExportEnv.cancelAt
      = some (2 + exportTotalFrames cexExportConfig.inTime cexExportConfig.outTime + 1)
    ∧ useExportTerminal (runExport cexExportConfig cexExportEnv).1 = TerminalState.finished
    ∧ useExportTerminal (runExport cexExportConfig cexExportEnv).1
        ≠ TerminalState.cancelledReset := by
  have hT : exportTotalFrames cexExportConfig.inTime cexExportConfig.outTime = 1 := by
    norm_num [exportTotalFrames, exportFPS, cexExportConfig]
  have hch : ∀ k, cancelHit cexExportEnv k = decide (4 ≤ k) := by
    intro k
    simp [cancelHit, cexExportEnv]
  have hnone : findRenderCancel cexExportEnv 0
      (exportTotalFrames cexExportConfig.inTime cexExportConfig.outTime) = none := by
    apply findRenderCancel_none
    intro t ht
    rw [hch]
    rw [hT] at ht
    simp
    omega
  have hrun := runExport_complete cexExportConfig cexExportEnv
    (by rw [hch]; rfl) (by rw [hch]; rfl) rfl hnone
    (by rw [hch, hT]; rfl)
  refine ⟨by rw [hT]; rfl, ?_, ?_⟩
  · rw [hrun]
    rfl
  · rw [hrun]
    intro h
    cases h

/-- Witness for the amended C3 theorem: cancelling at poll 2 (the top of
render frame 0) of a concrete one-frame export. -/
theorem export_cancellation_witness :
    useExportTerminal (runExport cexExportConfig witnessCancelEnv).1
        = TerminalState.cancelledReset
      ∧ ((runExport cexExportConfig witnessCancelEnv).2).balanced = true := by
  have hT : exportTotalFrames cexExportConfig.inTime cexExportConfig.outTime = 1 := by
    norm_num [exportTotalFrames, exportFPS, cexExportConfig]
  exact export_cancellation cexExportConfig witnessCancelEnv 2 rfl
    (Or.inr ⟨rfl, by rw [hT]; omega⟩)

theorem transcode_format_ok (fenv : FfmpegEnv) (v a : List ℕ)
    (hl : fenv.loadOk = true) (hx : execOk (fenv.exec mp4Args v a) = true) :
    (transcodeToMp4 fenv v a).format = "mp4" := by
  unfold transcodeToMp4
  rcases hexec : fenv.exec mp4Args v a with e | u
  · rw [hexec] at hx
    simp [execOk] at hx
  · simp [hl, hexec]

/-- C10: the transcode step is independent of the requested output format -
two runs whose configs differ only in `options.format` run identically (the
format is never read before the transcoder, which always attempts MP4
first), so a run requesting webm still resolves with format mp4 whenever
the primary path succeeds. -/
theorem export_format_independence (cfg : ExportConfig) (env : ExportEnv) (f1 f2 : String)
    (hcancel : env.cancelAt = none) (hrec : env.recorderStartOk = true)
    (hload : env.ffmpeg.loadOk = true)
    (hmp4 : ∀ v a, execOk (env.ffmpeg.exec mp4Args v a) = true) :
    runExport (withFormat cfg f1) env = runExport (withFormat cfg f2) env
      ∧ ExportOutcome.formatOf (runExport (withFormat cfg ("webm")) env).1
          = some ("mp4") := by
  have hch : ∀ k, cancelHit env k = false := by
    intro k
    simp [cancelHit, hcancel]
  constructor
  · rfl
  · have hnone : findRenderCancel env 0
        (exportTotalFrames (withFormat cfg ("webm")).inTime
          (withFormat cfg ("webm")).outTime) = none := by
      apply findRenderCancel_none
      intro t _
      exact hch _
    rw [runExport_complete (withFormat cfg ("webm")) env (hch 0) (hch 1) hrec hnone
      (hch _)]
    show some (exportDoneResult (withFormat cfg ("webm")) env).format = some ("mp4")
    have hfmt : (exportDoneResult (withFormat cfg ("webm")) env).format = "mp4" :=
      transcode_format_ok _ _ _ hload (hmp4 _ _)
    rw [hfmt]

/-- Witness for C10 at a concrete config and a fully successful
environment. -/
theorem export_format_independence_witness :
    runExport (withFormat cexExportConfig ("mp4")) witnessRunEnv
        = runExport (withFormat cexExportConfig ("webm")) witnessRunEnv
      ∧ ExportOutcome.formatOf
          (runExport (withFormat cexExportConfig ("webm")) witnessRunEnv).1
          = some ("mp4") :=
  export_format_independence cexExportConfig witnessRunEnv ("mp4") ("webm") rfl rfl rfl
    (fun _ _ => rfl)

/-! ## Feature extractor: nonnegativity and the unit-interval bound -/

theorem magnitudeOf_nonneg (v : ℕ → ℂ) (i : ℕ) : 0 ≤ magnitudeOf v i := by
  unfold magnitudeOf
  positivity

theorem getBandEnergy_nonneg (mags : ℕ → ℝ) (sampleRate : ℚ) (fftSize : ℕ)
    (lowHz highHz : ℚ) (hm : ∀ i, 0 ≤ mags i) :
    0 ≤ getBandEnergy mags sampleRate fftSize lowHz highHz := by
  unfold getBandEnergy
  dsimp only
  split
  · apply div_nonneg
    · exact Finset.sum_nonneg fun i _ => hm i
    · positivity
  · exact le_refl 0

theorem rawBass_nonneg (b : AudioBuffer) (inTime : ℚ) (f : ℕ) :
    0 ≤ rawBass b inTime f :=
  getBandEnergy_nonneg _ _ _ _ _ (magnitudeOf_nonneg _)

theorem rawMid_nonneg (b : AudioBuffer) (inTime : ℚ) (f : ℕ) :
    0 ≤ rawMid b inTime f :=
  getBandEnergy_nonneg _ _ _ _ _ (magnitudeOf_nonneg _)

theorem rawTreble_nonneg (b : AudioBuffer) (inTime : ℚ) (f : ℕ) :
    0 ≤ rawTreble b inTime f :=
  getBandEnergy_nonneg _ _ _ _ _ (magnitudeOf_nonneg _)

theorem rawAmplitude_nonneg (b : AudioBuffer) (inTime : ℚ) (f : ℕ) :
    0 ≤ rawAmplitude b inTime f :=
  Real.sqrt_nonneg _

theorem smoothValue_nonneg (prev x : ℝ) (hp : 0 ≤ prev) (hx : 0 ≤ x) :
    0 ≤ smoothValue prev x := by
  unfold smoothValue ATTACK_ALPHA RELEASE_ALPHA
  split <;> nlinarith

/-- Every raw (smoothed) frame has nonnegative band and amplitude values. -/
theorem framesLoop_nonneg (b : AudioBuffer) (inTime : ℚ) :
    ∀ (cnt f : ℕ) (pB pM pT pA : ℝ), 0 ≤ pB → 0 ≤ pM → 0 ≤ pT → 0 ≤ pA →
      ∀ fr ∈ framesLoop b inTime f cnt pB pM pT pA,
        0 ≤ fr.bass ∧ 0 ≤ fr.mid ∧ 0 ≤ fr.treble ∧ 0 ≤ fr.amplitude := by
  intro cnt
  induction cnt with
  | zero =>
    intro f pB pM pT pA _ _ _ _ fr hfr
    cases hfr
  | succ n ih =>
    intro f pB pM pT pA hB hM hT hA fr hfr
    rw [framesLoop] at hfr
    rcases List.mem_cons.mp hfr with hhd | htl
    · subst hhd
      refine ⟨smoothValue_nonneg _ _ hB (rawBass_nonneg _ _ _),
        smoothValue_nonneg _ _ hM (rawMid_nonneg _ _ _),
        smoothValue_nonneg _ _ hT (rawTreble_nonneg _ _ _),
        smoothValue_nonneg _ _ hA (rawAmplitude_nonneg _ _ _)⟩
    · exact ih (f + 1) _ _ _ _
        (smoothValue_nonneg _ _ hB (rawBass_nonneg _ _ _))
        (smoothValue_nonneg _ _ hM (rawMid_nonneg _ _ _))
        (smoothValue_nonneg _ _ hT (rawTreble_nonneg _ _ _))
        (smoothValue_nonneg _ _ hA (rawAmplitude_nonneg _ _ _)) fr htl

theorem rawFrames_nonneg (b : AudioBuffer) (inTime outTime : ℚ) :
    ∀ fr ∈ rawFrames b inTime outTime,
      0 ≤ fr.bass ∧ 0 ≤ fr.mid ∧ 0 ≤ fr.treble ∧ 0 ≤ fr.amplitude := by
  intro fr hfr
  exact framesLoop_nonneg b inTime _ 0 0 0 0 0 le_rfl le_rfl le_rfl le_rfl fr hfr

theorem maxField_init_le (g : ReactiveFrame → ℝ) :
    ∀ (l : List ReactiveFrame) (acc : ℝ),
      acc ≤ l.foldl (fun a fr => if g fr > a then g fr else a) acc := by
  intro l
  induction l with
  | nil => intro acc; exact le_rfl
  | cons hd tl ih =>
    intro acc
    have hstep : acc ≤ if g hd > acc then g hd else acc := by
      split
      · rename_i h
        exact le_of_lt h
      · exact le_rfl
    rw [List.foldl_cons]
    exact le_trans hstep (ih _)

theorem maxField_mem_le (g : ReactiveFrame → ℝ) :
    ∀ (l : List ReactiveFrame) (acc : ℝ) (fr : ReactiveFrame), fr ∈ l →
      g fr ≤ l.foldl (fun a fr2 => if g fr2 > a then g fr2 else a) acc := by
  intro l
  induction l with
  | nil =>
    intro acc fr hfr
    cases hfr
  | cons hd tl ih =>
    intro acc fr hfr
    rw [List.foldl_cons]
    rcases List.mem_cons.mp hfr with hhd | htl
    · subst hhd
      refine le_trans ?_ (maxField_init_le g tl _)
      show g fr ≤ if g fr > acc then g fr else acc
      split
      · exact le_rfl
      · rename_i h
        exact le_of_not_lt h
    · exact ih _ fr htl

theorem maxField_nonneg (g : ReactiveFrame → ℝ) (l : List ReactiveFrame) :
    0 ≤ maxField g l :=
  maxField_init_le g l 0

theorem maxField_le (g : ReactiveFrame → ℝ) (l : List ReactiveFrame) (fr : ReactiveFrame)
    (hfr : fr ∈ l) : g fr ≤ maxField g l :=
  maxField_mem_le g l 0 fr hfr

/-- One normalized band value lies in `[0,1]`: the raw value is nonnegative
and bounded by the (skipped-when-zero) band maximum. -/
theorem normalizeValue_unit (v m : ℝ) (hv : 0 ≤ v) (hvm : v ≤ m) :
    0 ≤ (if m > 0 then v / m else v) ∧ (if m > 0 then v / m else v) ≤ 1 := by
  split
  · constructor
    · apply div_nonneg hv
      linarith
    · rw [div_le_one (by assumption)]
      exact hvm
  · constructor
    · exact hv
    · have hm0 : m ≤ 0 := le_of_not_lt (by assumption)
      linarith

theorem normalizedFrames_unit (b : AudioBuffer) (inTime outTime : ℚ) :
    ∀ fr ∈ normalizedFrames b inTime outTime,
      (0 ≤ fr.bass ∧ fr.bass ≤ 1) ∧ (0 ≤ fr.mid ∧ fr.mid ≤ 1)
        ∧ (0 ≤ fr.treble ∧ fr.treble ≤ 1) ∧ (0 ≤ fr.amplitude ∧ fr.amplitude ≤ 1) := by
  intro fr hfr
  unfold normalizedFrames at hfr
  rcases List.mem_map.mp hfr with ⟨fr0, hfr0, hmap⟩
  have hnn := rawFrames_nonneg b inTime outTime fr0 hfr0
  subst hmap
  exact ⟨normalizeValue_unit _ _ hnn.1 (maxField_le _ _ _ hfr0),
    normalizeValue_unit _ _ hnn.2.1 (maxField_le _ _ _ hfr0),
    normalizeValue_unit _ _ hnn.2.2.1 (maxField_le _ _ _ hfr0),
    normalizeValue_unit _ _ hnn.2.2.2 (maxField_le _ _ _ hfr0)⟩

theorem quietBoostValue_unit (v : ℝ) (hv : 0 ≤ v) :
    0 ≤ min 1 (v * QUIET_TARGET_PEAK) ∧ min 1 (v * QUIET_TARGET_PEAK) ≤ 1 := by
  constructor
  · apply le_min
    · norm_num
    · have : (0:ℝ) ≤ QUIET_TARGET_PEAK := by norm_num [QUIET_TARGET_PEAK]
      positivity
  · exact min_le_left _ _

/-- Every value produced by the full pipeline lies in `[0,1]`. -/
theorem buildReactiveFrames_unit (b : AudioBuffer) (inTime outTime : ℚ) :
    ∀ fr ∈ buildReactiveFrames b inTime outTime,
      (0 ≤ fr.bass ∧ fr.bass ≤ 1) ∧ (0 ≤ fr.mid ∧ fr.mid ≤ 1)
        ∧ (0 ≤ fr.treble ∧ fr.treble ≤ 1) ∧ (0 ≤ fr.amplitude ∧ fr.amplitude ≤ 1) := by
  intro fr hfr
  unfold buildReactiveFrames at hfr
  split at hfr
  · rcases List.mem_map.mp hfr with ⟨fr0, hfr0, hmap⟩
    have hu := normalizedFrames_unit b inTime outTime fr0 hfr0
    subst hmap
    exact ⟨⟨(quietBoostValue_unit _ hu.1.1).1, (quietBoostValue_unit _ hu.1.1).2⟩,
      ⟨(quietBoostValue_unit _ hu.2.1.1).1, (quietBoostValue_unit _ hu.2.1.1).2⟩,
      ⟨(quietBoostValue_unit _ hu.2.2.1.1).1, (quietBoostValue_unit _ hu.2.2.1.1).2⟩,
      ⟨(quietBoostValue_unit _ hu.2.2.2.1).1, (quietBoostValue_unit _ hu.2.2.2.1).2⟩⟩
  · exact normalizedFrames_unit b inTime outTime fr hfr

/-! ## Silence propagation through the extractor -/

theorem getMono_silent (b : AudioBuffer) (hs : SilentBuffer b) (i : ℕ) :
    getMono b i = 0 := by
  unfold getMono
  apply Finset.sum_eq_zero
  intro ch hch
  rw [hs ch i (Finset.mem_range.mp hch)]
  simp

theorem windowSample_silent (b : AudioBuffer) (hs : SilentBuffer b) (inTime : ℚ)
    (f i : ℕ) : windowSample b inTime f i = 0 := by
  unfold windowSample
  dsimp only
  split
  · exact getMono_silent b hs _
  · rfl

theorem windowedInput_silent (b : AudioBuffer) (hs : SilentBuffer b) (inTime : ℚ)
    (f : ℕ) : ∀ i, windowedInput b inTime f i = 0 := by
  intro i
  unfold windowedInput
  rw [windowSample_silent b hs]
  simp

theorem innerLoop_zero (half i : ℕ) (w : ℂ) :
    ∀ (k j : ℕ) (cur : ℂ) (v : ℕ → ℂ), (∀ m, v m = 0) → half - j ≤ k →
      ∀ m, innerLoop half i w cur j v m = 0 := by
  intro k
  induction k with
  | zero =>
    intro j cur v hv hk m
    unfold innerLoop
    rw [if_neg (by omega)]
    exact hv m
  | succ n ih =>
    intro j cur v hv hk m
    unfold innerLoop
    split
    · apply ih
      · intro m2
        dsimp only
        split
        · rw [hv, hv]
          ring
        · split
          · rw [hv, hv]
            ring
          · exact hv m2
      · omega
    · exact hv m

theorem blockLoop_zero (n len : ℕ) (w : ℂ) :
    ∀ (k i : ℕ) (v : ℕ → ℂ), (∀ m, v m = 0) → n - i ≤ k →
      ∀ m, blockLoop n len w i v m = 0 := by
  intro k
  induction k with
  | zero =>
    intro i v hv hk m
    unfold blockLoop
    rw [if_neg (by omega)]
    exact hv m
  | succ q ih =>
    intro i v hv hk m
    unfold blockLoop
    split
    · rename_i hcond
      apply ih
      · exact innerLoop_zero (len / 2) i w (len / 2) 0 1 v hv (by omega)
      · omega
    · exact hv m

theorem stageLoop_zero (n : ℕ) :
    ∀ (k len : ℕ) (v : ℕ → ℂ), (∀ m, v m = 0) → n + 1 - len ≤ k →
      ∀ m, stageLoop n len v m = 0 := by
  intro k
  induction k with
  | zero =>
    intro len v hv hk m
    unfold stageLoop
    rw [if_neg (by omega)]
    exact hv m
  | succ q ih =>
    intro len v hv hk m
    unfold stageLoop
    split
    · rename_i hcond
      apply ih
      · exact blockLoop_zero n len (twiddle len) n 0 v hv (by omega)
      · omega
    · exact hv m

theorem bitrevLoop_zero (n : ℕ) :
    ∀ (k i j : ℕ) (v : ℕ → ℂ), (∀ m, v m = 0) → n - i ≤ k →
      ∀ m, bitrevLoop n i j v m = 0 := by
  intro k
  induction k with
  | zero =>
    intro i j v hv hk m
    unfold bitrevLoop
    rw [if_neg (by omega)]
    exact hv m
  | succ q ih =>
    intro i j v hv hk m
    unfold bitrevLoop
    split
    · apply ih
      · intro m2
        dsimp only
        split
        · unfold swapAt
          split
          · exact hv _
          · split
            · exact hv _
            · exact hv m2
        · exact hv m2
      · omega
    · exact hv m

theorem fft_zero (n : ℕ) (v : ℕ → ℂ) (hv : ∀ m, v m = 0) : ∀ m, fft n v m = 0 := by
  intro m
  unfold fft bitrevPass
  exact stageLoop_zero n (n + 1) 2 _ (bitrevLoop_zero n n 1 0 v hv (by omega)) (by omega) m

theorem frameMagnitudes_silent (b : AudioBuffer) (hs : SilentBuffer b) (inTime : ℚ)
    (f i : ℕ) : frameMagnitudes b inTime f i = 0 := by
  unfold frameMagnitudes magnitudeOf
  rw [fft_zero FFT_SIZE _ (windowedInput_silent b hs inTime f)]
  simp

theorem getBandEnergy_zero (mags : ℕ → ℝ) (sampleRate : ℚ) (fftSize : ℕ)
    (lowHz highHz : ℚ) (hm : ∀ i, mags i = 0) :
    getBandEnergy mags sampleRate fftSize lowHz highHz = 0 := by
  unfold getBandEnergy
  dsimp only
  rw [Finset.sum_eq_zero fun i _ => hm i]
  split
  · exact zero_div _
  · rfl

theorem rawAmplitude_silent (b : AudioBuffer) (hs : SilentBuffer b) (inTime : ℚ)
    (f : ℕ) : rawAmplitude b inTime f = 0 := by
  unfold rawAmplitude
  dsimp only
  have hz : ∀ i ∈ Finset.range (min FFT_SIZE b.length),
      ((windowSample b inTime f i : ℝ) * (windowSample b inTime f i : ℝ)) = 0 := by
    intro i _
    rw [windowSample_silent b hs]
    simp
  rw [Finset.sum_eq_zero hz, zero_div, Real.sqrt_zero]

theorem smoothValue_zero : smoothValue 0 0 = 0 := by
  norm_num [smoothValue, RELEASE_ALPHA]

theorem framesLoop_silent (b : AudioBuffer) (hs : SilentBuffer b) (inTime : ℚ) :
    ∀ (cnt f : ℕ), framesLoop b inTime f cnt 0 0 0 0
      = (List.range' f cnt).map silentFrame := by
  intro cnt
  induction cnt with
  | zero => intro f; rfl
  | succ n ih =>
    intro f
    rw [framesLoop, List.range'_succ f n 1, List.map_cons]
    have hb : rawBass b inTime f = 0 :=
      getBandEnergy_zero _ _ _ _ _ (frameMagnitudes_silent b hs inTime f)
    have hm : rawMid b inTime f = 0 :=
      getBandEnergy_zero _ _ _ _ _ (frameMagnitudes_silent b hs inTime f)
    have ht : rawTreble b inTime f = 0 :=
      getBandEnergy_zero _ _ _ _ _ (frameMagnitudes_silent b hs inTime f)
    have ha : rawAmplitude b inTime f = 0 := rawAmplitude_silent b hs inTime f
    rw [hb, hm, ht, ha, smoothValue_zero, ih (f + 1)]
    rfl

theorem rawFrames_silent (b : AudioBuffer) (hs : SilentBuffer b) (inTime outTime : ℚ) :
    rawFrames b inTime outTime
      = (List.range' 0 (analyzerTotalFrames inTime outTime)).map silentFrame := by
  unfold rawFrames
  exact framesLoop_silent b hs inTime _ 0

theorem maxField_fold_le (g : ReactiveFrame → ℝ) :
    ∀ (l : List ReactiveFrame) (acc c : ℝ), acc ≤ c → (∀ fr ∈ l, g fr ≤ c) →
      l.foldl (fun a fr => if g fr > a then g fr else a) acc ≤ c := by
  intro l
  induction l with
  | nil => intro acc c hacc _; exact hacc
  | cons hd tl ih =>
    intro acc c hacc hall
    rw [List.foldl_cons]
    apply ih
    · show (if g hd > acc then g hd else acc) ≤ c
      split
      · exact hall hd (List.mem_cons_self hd tl)
      · exact hacc
    · intro fr hfr
      exact hall fr (List.mem_cons_of_mem hd hfr)

theorem preNormMaxAmp_silent (b : AudioBuffer) (hs : SilentBuffer b)
    (inTime outTime : ℚ) : preNormMaxAmp b inTime outTime = 0 := by
  apply le_antisymm
  · unfold preNormMaxAmp maxField
    apply maxField_fold_le
    · exact le_rfl
    · intro fr hfr
      rw [rawFrames_silent b hs inTime outTime] at hfr
      rcases List.mem_map.mp hfr with ⟨t, _, hmap⟩
      subst hmap
      exact le_rfl
  · exact maxField_nonneg _ _

theorem normalizedFrames_silent (b : AudioBuffer) (hs : SilentBuffer b)
    (inTime outTime : ℚ) :
    normalizedFrames b inTime outTime
      = (List.range' 0 (analyzerTotalFrames inTime outTime)).map silentFrame := by
  unfold normalizedFrames
  rw [rawFrames_silent b hs inTime outTime, List.map_map]
  apply List.map_congr_left
  intro t _
  show (fun fr => ReactiveFrame.mk fr.time
      (if maxField (fun fr2 => fr2.bass) ((List.range' 0 _).map silentFrame) > 0
        then fr.bass / _ else fr.bass) _ _ _) (silentFrame t) = silentFrame t
  unfold silentFrame
  dsimp only
  congr 1 <;> (split <;> simp)

theorem buildReactiveFrames_silent (b : AudioBuffer) (hs : SilentBuffer b)
    (inTime outTime : ℚ) :
    buildReactiveFrames b inTime outTime
      = (List.range' 0 (analyzerTotalFrames inTime outTime)).map silentFrame := by
  unfold buildReactiveFrames
  rw [if_pos (by rw [preNormMaxAmp_silent b hs inTime outTime]; norm_num [QUIET_THRESHOLD]),
    normalizedFrames_silent b hs inTime outTime, List.map_map]
  apply List.map_congr_left
  intro t _
  show quietBoost (silentFrame t) = silentFrame t
  unfold quietBoost silentFrame
  dsimp only
  congr 1 <;> simp

/-- C5: every band and amplitude value of every extracted frame lies in
`[0,1]`, and a silent buffer yields all-zero frames (the zero normalization
divisors are skipped; in the real-number semantics every division is total,
so no NaN or infinity can arise). -/
theorem extraction_values_in_unit_interval (b : AudioBuffer) (inTime outTime : ℚ) :
    (∀ fr ∈ buildReactiveFrames b inTime outTime,
      (0 ≤ fr.bass ∧ fr.bass ≤ 1) ∧ (0 ≤ fr.mid ∧ fr.mid ≤ 1)
        ∧ (0 ≤ fr.treble ∧ fr.treble ≤ 1) ∧ (0 ≤ fr.amplitude ∧ fr.amplitude ≤ 1))
    ∧ (SilentBuffer b → ∀ fr ∈ buildReactiveFrames b inTime outTime,
        fr.bass = 0 ∧ fr.mid = 0 ∧ fr.treble = 0 ∧ fr.amplitude = 0) := by
  constructor
  · exact buildReactiveFrames_unit b inTime outTime
  · intro hs fr hfr
    rw [buildReactiveFrames_silent b hs inTime outTime] at hfr
    rcases List.mem_map.mp hfr with ⟨t, _, hmap⟩
    subst hmap
    exact ⟨rfl, rfl, rfl, rfl⟩

/-- Witness for C5: the silent buffer satisfies the silence hypothesis and
its one-second extraction is all zero. -/
theorem extraction_values_witness :
    SilentBuffer silentBuffer
      ∧ (∀ fr ∈ buildReactiveFrames silentBuffer 0 1,
          fr.bass = 0 ∧ fr.mid = 0 ∧ fr.treble = 0 ∧ fr.amplitude = 0) :=
  ⟨fun _ _ _ => rfl,
    (extraction_values_in_unit_interval silentBuffer 0 1).2 (fun _ _ _ => rfl)⟩

/-- C9: when the pre-normalization global amplitude maximum is below the
quiet threshold 0.1, every frame of the final output is the normalized frame
with all four signals scaled by the target peak 0.8 and clamped at 1.0;
otherwise the normalized frames are returned unscaled. -/
theorem quiet_boost_behavior (b : AudioBuffer) (inTime outTime : ℚ) (k : ℕ)
    (fr : ReactiveFrame)
    (hfr : (normalizedFrames b inTime outTime)[k]? = some fr) :
    (preNormMaxAmp b inTime outTime < 1/10
      ∧ (buildReactiveFrames b inTime outTime)[k]?
          = some (ReactiveFrame.mk fr.time (min 1 (fr.bass * (4/5)))
              (min 1 (fr.mid * (4/5))) (min 1 (fr.treble * (4/5)))
              (min 1 (fr.amplitude * (4/5)))))
    ∨ (1/10 ≤ preNormMaxAmp b inTime outTime
      ∧ (buildReactiveFrames b inTime outTime)[k]? = some fr) := by
  have hthr : QUIET_THRESHOLD = (1/10 : ℝ) := by norm_num [QUIET_THRESHOLD]
  unfold buildReactiveFrames
  by_cases h : preNormMaxAmp b inTime outTime < QUIET_THRESHOLD
  · left
    constructor
    · rw [← hthr]
      exact h
    · rw [if_pos h, List.getElem?_map, hfr]
      show some (quietBoost fr) = _
      norm_num [quietBoost, QUIET_TARGET_PEAK]
  · right
    constructor
    · rw [← hthr]
      exact le_of_not_lt h
    · rw [if_neg h]
      exact hfr

/-- Witness for C9: the silent one-second extraction is below the quiet
threshold, so its first output frame is the boosted (and clamped) first
normalized frame. -/
theorem quiet_boost_behavior_witness :
    (preNormMaxAmp silentBuffer 0 1 < 1/10
      ∧ (buildReactiveFrames silentBuffer 0 1)[0]?
          = some (ReactiveFrame.mk (silentFrame 0).time
              (min 1 ((silentFrame 0).bass * (4/5)))
              (min 1 ((silentFrame 0).mid * (4/5)))
              (min 1 ((silentFrame 0).treble * (4/5)))
              (min 1 ((silentFrame 0).amplitude * (4/5)))))
    ∨ (1/10 ≤ preNormMaxAmp silentBuffer 0 1
      ∧ (buildReactiveFrames silentBuffer 0 1)[0]? = some (silentFrame 0)) := by
  apply quiet_boost_behavior silentBuffer 0 1 0 (silentFrame 0)
  rw [normalizedFrames_silent silentBuffer (fun _ _ _ => rfl) 0 1]
  have hT : analyzerTotalFrames 0 1 = 30 := by
    norm_num [analyzerTotalFrames, FPS] <;> simp
  rw [hT, List.getElem?_map]
  rfl

/-! ## Bit-reversal correctness

`bitrevPass` realises the permutation `bitRev m`: helpers about single-bit
masks, the reversed increment, and the swap loop invariant. -/

theorem and_two_pow_eq_zero {a k : ℕ} (h : a < 2 ^ k) : a &&& 2 ^ k = 0 := by
  apply Nat.eq_of_testBit_eq
  intro i
  rw [Nat.testBit_and, Nat.zero_testBit]
  by_cases hik : k = i
  · subst hik
    rw [Nat.testBit_lt_two_pow h, Bool.false_and]
  · rw [Nat.testBit_two_pow_of_ne hik, Bool.and_false]

theorem xor_two_pow_of_lt {a k : ℕ} (h : a < 2 ^ k) : a ^^^ 2 ^ k = 2 ^ k + a := by
  apply Nat.eq_of_testBit_eq
  intro i
  rw [Nat.testBit_xor]
  rcases lt_trichotomy i k with hi | hi | hi
  · rw [Nat.testBit_two_pow_add_gt hi, Nat.testBit_two_pow_of_ne (by omega), Bool.xor_false]
  · subst hi
    rw [Nat.testBit_two_pow_add_eq, Nat.testBit_lt_two_pow h, Nat.testBit_two_pow_self]
    rfl
  · have hpow : (2 : ℕ) ^ k * 2 ≤ 2 ^ i := by
      have h1 : (2 : ℕ) ^ (k + 1) ≤ 2 ^ i := Nat.pow_le_pow_right (by norm_num) (by omega)
      rw [Nat.pow_succ] at h1
      exact h1
    have h1 : a < 2 ^ i := by omega
    have h2 : 2 ^ k + a < 2 ^ i := by omega
    rw [Nat.testBit_lt_two_pow h1, Nat.testBit_lt_two_pow h2,
      Nat.testBit_two_pow_of_ne (by omega), Bool.xor_false]

theorem two_pow_add_and_ne_zero {a k : ℕ} (h : a < 2 ^ k) : (2 ^ k + a) &&& 2 ^ k ≠ 0 := by
  intro h0
  have h1 : ((2 ^ k + a) &&& 2 ^ k).testBit k = false := by
    rw [h0]
    exact Nat.zero_testBit k
  rw [Nat.testBit_and, Nat.testBit_two_pow_add_eq, Nat.testBit_lt_two_pow h,
    Nat.testBit_two_pow_self] at h1
  simp at h1

theorem two_pow_add_xor {a k : ℕ} (h : a < 2 ^ k) : (2 ^ k + a) ^^^ 2 ^ k = a := by
  rw [← xor_two_pow_of_lt h, Nat.xor_assoc, Nat.xor_self, Nat.xor_zero]

theorem bitRev_lt (m : ℕ) : ∀ i, bitRev m i < 2 ^ m := by
  induction m with
  | zero =>
    intro i
    simp [bitRev]
  | succ m ih =>
    intro i
    have h1 := ih (i / 2)
    have h3 : (2 : ℕ) ^ (m + 1) = 2 ^ m * 2 := pow_succ 2 m
    simp only [bitRev]
    rcases Nat.mod_two_eq_zero_or_one i with h | h <;> rw [h] <;> omega

theorem bitRev_testBit (m : ℕ) :
    ∀ i t, t < m → (bitRev m i).testBit t = i.testBit (m - 1 - t) := by
  induction m with
  | zero =>
    intro i t ht
    omega
  | succ m ih =>
    intro i t ht
    simp only [bitRev]
    rcases Nat.lt_or_ge t m with h | h
    · have hr := bitRev_lt m (i / 2)
      have hmod : (i % 2 * 2 ^ m + bitRev m (i / 2)) % 2 ^ m = bitRev m (i / 2) := by
        rw [Nat.add_comm, Nat.add_mul_mod_self_right, Nat.mod_eq_of_lt hr]
      have h2 := Nat.testBit_mod_two_pow (i % 2 * 2 ^ m + bitRev m (i / 2)) m t
      have hd : decide (t < m) = true := by simp [h]
      rw [hmod, hd, Bool.true_and] at h2
      rw [← h2, ih (i / 2) t h, Nat.testBit_div_two]
      congr 1
      omega
    · have ht2 : m = t := by omega
      subst ht2
      have hr := bitRev_lt m (i / 2)
      have h0 : m + 1 - 1 - m = 0 := by omega
      rw [Nat.mul_comm, Nat.testBit_mul_two_pow_add_eq, Nat.testBit_lt_two_pow hr, h0,
        Nat.testBit_zero, Nat.mod_mod_of_dvd i dvd_rfl, Bool.xor_false]

theorem bitRev_bitRev (m i : ℕ) (h : i < 2 ^ m) : bitRev m (bitRev m i) = i := by
  apply Nat.eq_of_testBit_eq
  intro t
  rcases Nat.lt_or_ge t m with ht | ht
  · rw [bitRev_testBit m (bitRev m i) t ht, bitRev_testBit m i (m - 1 - t) (by omega)]
    congr 1
    omega
  · have h1 : bitRev m (bitRev m i) < 2 ^ t :=
      lt_of_lt_of_le (bitRev_lt m (bitRev m i)) (Nat.pow_le_pow_right (by norm_num) ht)
    have h2 : i < 2 ^ t := lt_of_lt_of_le h (Nat.pow_le_pow_right (by norm_num) ht)
    rw [Nat.testBit_lt_two_pow h1, Nat.testBit_lt_two_pow h2]

theorem bitRev_zero_eq (m : ℕ) : bitRev m 0 = 0 := by
  induction m with
  | zero => rfl
  | succ m ih => simp [bitRev, ih]

theorem revInc_spec (m : ℕ) :
    ∀ t, t + 1 < 2 ^ m → revInc (bitRev m t) (2 ^ m / 2) = bitRev m (t + 1) := by
  induction m with
  | zero =>
    intro t ht
    omega
  | succ m ih =>
    intro t ht
    have hp : (2 : ℕ) ^ (m + 1) = 2 ^ m * 2 := pow_succ 2 m
    have hhalf : (2 : ℕ) ^ (m + 1) / 2 = 2 ^ m := by omega
    have hlt : bitRev m (t / 2) < 2 ^ m := bitRev_lt m (t / 2)
    rcases Nat.mod_two_eq_zero_or_one t with hpar | hpar
    · have hbr : bitRev (m + 1) t = bitRev m (t / 2) := by
        simp only [bitRev]
        rw [hpar]
        omega
      rw [hbr, hhalf]
      unfold revInc
      rw [if_neg (by simp [and_two_pow_eq_zero hlt]), xor_two_pow_of_lt hlt]
      have h1 : (t + 1) % 2 = 1 := by omega
      have h2 : (t + 1) / 2 = t / 2 := by omega
      simp only [bitRev]
      rw [h1, h2]
      omega
    · have hbr : bitRev (m + 1) t = 2 ^ m + bitRev m (t / 2) := by
        simp only [bitRev]
        rw [hpar]
        omega
      rw [hbr, hhalf]
      unfold revInc
      rw [if_pos (two_pow_add_and_ne_zero hlt), two_pow_add_xor hlt]
      have hih : t / 2 + 1 < 2 ^ m := by omega
      rw [ih (t / 2) hih]
      have h1 : (t + 1) % 2 = 0 := by omega
      have h2 : (t + 1) / 2 = t / 2 + 1 := by omega
      simp only [bitRev]
      rw [h1, h2]
      omega

theorem bitrevLoop_exit (m : ℕ) (x : ℕ → ℂ) (i j : ℕ) (v : ℕ → ℂ)
    (h2 : 2 ^ m ≤ i)
    (hv : ∀ p, p < 2 ^ m →
      v p = if min p (bitRev m p) < i ∧ p ≠ bitRev m p then x (bitRev m p) else x p) :
    ∀ p, p < 2 ^ m → bitrevLoop (2 ^ m) i j v p = x (bitRev m p) := by
  intro p hp
  unfold bitrevLoop
  rw [if_neg (by omega), hv p hp]
  by_cases hfix : p = bitRev m p
  · rw [if_neg (fun h => h.2 hfix)]
    exact congrArg x hfix
  · rw [if_pos ⟨lt_of_le_of_lt (min_le_left _ _) (lt_of_lt_of_le hp h2), hfix⟩]

theorem bitrevLoop_inv (m : ℕ) (x : ℕ → ℂ) :
    ∀ k i (v : ℕ → ℂ), 1 ≤ i → i ≤ 2 ^ m → 2 ^ m - i ≤ k →
      (∀ p, p < 2 ^ m →
        v p = if min p (bitRev m p) < i ∧ p ≠ bitRev m p then x (bitRev m p) else x p) →
      ∀ p, p < 2 ^ m → bitrevLoop (2 ^ m) i (bitRev m (i - 1)) v p = x (bitRev m p) := by
  intro k
  induction k with
  | zero =>
    intro i v h1 h2 h3 hv p hp
    exact bitrevLoop_exit m x i (bitRev m (i - 1)) v (by omega) hv p hp
  | succ k ihk =>
    intro i v h1 h2 h3 hv p hp
    rcases Nat.lt_or_ge i (2 ^ m) with hi | hi
    · have hj2 : revInc (bitRev m (i - 1)) (2 ^ m / 2) = bitRev m i := by
        have h := revInc_spec m (i - 1) (by omega)
        rwa [show i - 1 + 1 = i from by omega] at h
      have hRlt : bitRev m i < 2 ^ m := bitRev_lt m i
      have hRR : bitRev m (bitRev m i) = i := bitRev_bitRev m i hi
      have hv2 : ∀ q, q < 2 ^ m →
          (if i < bitRev m i then swapAt v i (bitRev m i) else v) q
            = (if min q (bitRev m q) < i + 1 ∧ q ≠ bitRev m q then x (bitRev m q) else x q) := by
        intro q hq
        by_cases hsw : i < bitRev m i
        · have hmin1 : min i (bitRev m i) = i := min_eq_left (le_of_lt hsw)
          have hmin2 : min (bitRev m i) i = i := min_eq_right (le_of_lt hsw)
          rw [if_pos hsw]
          by_cases hqi : q = i
          · subst hqi
            have hs : swapAt v q (bitRev m q) q = v (bitRev m q) := by
              simp [swapAt]
            rw [hs, hv (bitRev m q) hRlt, hRR, hmin2]
            rw [if_neg (fun hcon => absurd hcon.1 (by omega)),
              if_pos ⟨by omega, fun hcon => by omega⟩]
          · by_cases hqR : q = bitRev m i
            · subst hqR
              have hs : swapAt v i (bitRev m i) (bitRev m i) = v i := by
                simp [swapAt]
                intro hcon
                exact absurd hcon hqi
              rw [hs, hv i hi, hRR, hmin1, hmin2]
              rw [if_neg (fun hcon => absurd hcon.1 (by omega)),
                if_pos ⟨by omega, fun hcon => by omega⟩]
            · have hs : swapAt v i (bitRev m i) q = v q := by
                simp [swapAt, hqi, hqR]
              rw [hs, hv q hq]
              by_cases hc2 : q = bitRev m q
              · rw [if_neg (fun h => h.2 hc2), if_neg (fun h => h.2 hc2)]
              · by_cases hc1 : min q (bitRev m q) < i
                · rw [if_pos ⟨hc1, hc2⟩, if_pos ⟨by omega, hc2⟩]
                · have hne : min q (bitRev m q) ≠ i := by
                    intro hmin
                    rcases Nat.le_total q (bitRev m q) with hle | hle
                    · rw [min_eq_left hle] at hmin
                      exact hqi hmin
                    · rw [min_eq_right hle] at hmin
                      have hinv := bitRev_bitRev m q hq
                      rw [hmin] at hinv
                      exact hqR hinv.symm
                  rw [if_neg (fun h => hc1 h.1), if_neg (fun h => absurd h.1 (by omega))]
        · rw [if_neg hsw, hv q hq]
          have h5 : bitRev m i ≤ i := Nat.le_of_not_lt hsw
          by_cases hc2 : q = bitRev m q
          · rw [if_neg (fun h => h.2 hc2), if_neg (fun h => h.2 hc2)]
          · by_cases hc1 : min q (bitRev m q) < i
            · rw [if_pos ⟨hc1, hc2⟩, if_pos ⟨by omega, hc2⟩]
            · have hne : min q (bitRev m q) ≠ i := by
                intro hmin
                rcases Nat.le_total q (bitRev m q) with hle | hle
                · rw [min_eq_left hle] at hmin
                  subst hmin
                  exact hc2 (le_antisymm hle (by omega))
                · rw [min_eq_right hle] at hmin
                  have hinv := bitRev_bitRev m q hq
                  rw [hmin] at hinv
                  apply hc2
                  omega
              rw [if_neg (fun h => hc1 h.1), if_neg (fun h => absurd h.1 (by omega))]
      have hstep : bitrevLoop (2 ^ m) i (bitRev m (i - 1)) v p
          = bitrevLoop (2 ^ m) (i + 1) (bitRev m i)
              (if i < bitRev m i then swapAt v i (bitRev m i) else v) p := by
        conv_lhs => rw [bitrevLoop]
        rw [if_pos hi]
        show bitrevLoop (2 ^ m) (i + 1) (revInc (bitRev m (i - 1)) (2 ^ m / 2))
            (if i < revInc (bitRev m (i - 1)) (2 ^ m / 2)
              then swapAt v i (revInc (bitRev m (i - 1)) (2 ^ m / 2)) else v) p
            = _
        rw [hj2]
      rw [hstep]
      exact ihk (i + 1) _ (by omega) (by omega) (by omega) hv2 p hp
    · exact bitrevLoop_exit m x i (bitRev m (i - 1)) v hi hv p hp

theorem bitrevPass_spec (m : ℕ) (x : ℕ → ℂ) :
    ∀ p, p < 2 ^ m → bitrevPass (2 ^ m) x p = x (bitRev m p) := by
  intro p hp
  unfold bitrevPass
  have hinv : ∀ q, q < 2 ^ m →
      x q = if min q (bitRev m q) < 1 ∧ q ≠ bitRev m q then x (bitRev m q) else x q := by
    intro q hq
    rw [if_neg ?_]
    rintro ⟨hc1, hc2⟩
    rcases Nat.le_total q (bitRev m q) with hle | hle
    · rw [min_eq_left hle] at hc1
      apply hc2
      have hq0 : q = 0 := by omega
      rw [hq0, bitRev_zero_eq]
    · rw [min_eq_right hle] at hc1
      have hr0 : bitRev m q = 0 := by omega
      have hinv2 := bitRev_bitRev m q hq
      rw [hr0, bitRev_zero_eq] at hinv2
      exact hc2 (by omega)
  have hpos : 0 < 2 ^ m := Nat.two_pow_pos m
  have h := bitrevLoop_inv m x (2 ^ m) 1 x (le_refl 1) (by omega) (by omega) hinv p hp
  rwa [show bitRev m (1 - 1) = 0 from bitRev_zero_eq m] at h


/-! ## Butterfly stages: closed forms -/

theorem innerLoop_closed (half i : ℕ) (w : ℂ) :
    ∀ k j0 (v : ℕ → ℂ), j0 ≤ half → half - j0 ≤ k →
      innerLoop half i w (w ^ j0) j0 v = butterflied half i w j0 v := by
  intro k
  induction k with
  | zero =>
    intro j0 v h1 h2
    have hj : j0 = half := by omega
    subst hj
    unfold innerLoop
    rw [if_neg (by omega)]
    funext p
    simp only [butterflied]
    rw [if_neg (by omega), if_neg (by omega)]
  | succ k ihk =>
    intro j0 v h1 h2
    rcases Nat.lt_or_ge j0 half with hj | hj
    · have hstep : innerLoop half i w (w ^ j0) j0 v
          = innerLoop half i w (w ^ (j0 + 1)) (j0 + 1)
              (fun q => if q = i + j0 + half then v (i + j0) - w ^ j0 * v (i + j0 + half)
                else if q = i + j0 then v (i + j0) + w ^ j0 * v (i + j0 + half)
                else v q) := by
        conv_lhs => rw [innerLoop]
        rw [if_pos hj]
        show innerLoop half i w (w ^ j0 * w) (j0 + 1)
            (fun q => if q = i + j0 + half then v (i + j0) - w ^ j0 * v (i + j0 + half)
              else if q = i + j0 then v (i + j0) + w ^ j0 * v (i + j0 + half)
              else v q) = _
        rw [← pow_succ]
      rw [hstep, ihk (j0 + 1) _ (by omega) (by omega)]
      funext p
      simp only [butterflied]
      by_cases hA : p = i + j0
      · subst hA
        rw [if_neg (by omega), if_neg (by omega), if_neg (by omega), if_pos rfl,
          if_pos (by omega), show i + j0 - i = j0 from by omega]
      · by_cases hB : p = i + j0 + half
        · subst hB
          rw [if_neg (by omega), if_neg (by omega), if_pos rfl,
            if_neg (by omega), if_pos (by omega),
            show i + j0 + half - half = i + j0 from by omega,
            show i + j0 + half - i - half = j0 from by omega]
        · by_cases hC : i + j0 + 1 ≤ p ∧ p < i + half
          · rw [if_pos (by omega), if_neg (by omega), if_neg (by omega), if_neg (by omega),
              if_neg (by omega), if_pos (by omega)]
          · by_cases hD : i + half + j0 + 1 ≤ p ∧ p < i + half + half
            · rw [if_neg (by omega), if_pos (by omega), if_neg (by omega), if_neg (by omega),
                if_neg (by omega), if_neg (by omega), if_neg (by omega), if_pos (by omega)]
            · rw [if_neg (by omega), if_neg (by omega), if_neg (by omega), if_neg (by omega),
                if_neg (by omega), if_neg (by omega)]
    · exact ihk j0 v h1 (by omega)

theorem blockLoop_closed (n len : ℕ) (w : ℂ) (hlen2 : 2 ≤ len) (heven : len % 2 = 0)
    (hdvd : len ∣ n) :
    ∀ k q (v : ℕ → ℂ), n - q * len ≤ k →
      blockLoop n len w (q * len) v = stageTransformFrom n len w (q * len) v := by
  intro k
  induction k with
  | zero =>
    intro q v hk
    unfold blockLoop
    rw [if_neg (by omega)]
    funext p
    simp only [stageTransformFrom]
    rw [if_neg (by omega)]
  | succ k ihk =>
    intro q v hk
    rcases Nat.lt_or_ge (q * len) n with hq | hq
    · obtain ⟨d, hd⟩ := hdvd
      have hhalf2 : len / 2 * 2 = len := by omega
      have hx : (q + 1) * len = q * len + len := by ring
      have hq1 : (q + 1) * len ≤ n := by
        have hql : q < d := by
          by_contra hc
          push_neg at hc
          have h8 : len * d ≤ len * q := Nat.mul_le_mul_left len hc
          have h9 : len * q = q * len := Nat.mul_comm len q
          omega
        have h8 : (q + 1) * len ≤ d * len := Nat.mul_le_mul_right len hql
        have h9 : d * len = len * d := Nat.mul_comm d len
        omega
      have hB : innerLoop (len / 2) (q * len) w 1 0 v
          = butterflied (len / 2) (q * len) w 0 v := by
        have h := innerLoop_closed (len / 2) (q * len) w (len / 2) 0 v (by omega) (by omega)
        rwa [pow_zero] at h
      have hstep : blockLoop n len w (q * len) v
          = blockLoop n len w ((q + 1) * len) (butterflied (len / 2) (q * len) w 0 v) := by
        conv_lhs => rw [blockLoop]
        rw [if_pos ⟨hq, by omega⟩, hB, show q * len + len = (q + 1) * len from by ring]
      rw [hstep, ihk (q + 1) _ (by omega)]
      have hBout : ∀ r, q * len + len ≤ r →
          butterflied (len / 2) (q * len) w 0 v r = v r := by
        intro r hr
        simp only [butterflied]
        rw [if_neg (by omega), if_neg (by omega)]
      funext p
      by_cases hE : q * len ≤ p ∧ p < n
      · obtain ⟨hE1, hE2⟩ := hE
        by_cases hiv : (q + 1) * len ≤ p
        · simp only [stageTransformFrom]
          rw [if_pos (by omega)]
          have h6 : q + 1 ≤ p / len := (Nat.le_div_iff_mul_le (by omega)).mpr (by omega)
          have h7 : (q + 1) * len ≤ p / len * len := Nat.mul_le_mul_right len h6
          have h8 := Nat.div_add_mod p len
          have h9 : len * (p / len) = p / len * len := Nat.mul_comm len (p / len)
          by_cases hc : p % len < len / 2
          · rw [if_pos hc, hBout p (by omega), hBout (p + len / 2) (by omega),
              if_pos (by omega), if_pos hc]
          · rw [if_neg hc, hBout (p - len / 2) (by omega), hBout p (by omega),
              if_pos (by omega), if_neg hc]
        · have hr : p % len = p - q * len := by
            have h9 : p - q * len + q * len = p := by omega
            conv_lhs => rw [← h9]
            rw [Nat.add_mul_mod_self_right]
            exact Nat.mod_eq_of_lt (by omega)
          simp only [stageTransformFrom, butterflied]
          rw [hr]
          by_cases hc : p - q * len < len / 2
          · rw [if_neg (by omega), if_pos (by omega), if_pos (by omega), if_pos hc]
          · rw [if_neg (by omega), if_neg (by omega), if_pos (by omega), if_pos (by omega),
              if_neg hc]
      · simp only [stageTransformFrom, butterflied]
        rw [if_neg (by omega), if_neg (by omega), if_neg (by omega), if_neg (by omega)]
    · unfold blockLoop
      rw [if_neg (by omega)]
      funext p
      simp only [stageTransformFrom]
      rw [if_neg (by omega)]

theorem stageLoop_exit (m s : ℕ) (v : ℕ → ℂ) (h : m < s + 1) :
    stageLoop (2 ^ m) (2 ^ (s + 1)) v = v := by
  unfold stageLoop
  rw [if_neg ?_]
  rintro ⟨-, hc⟩
  have h1 : (2 : ℕ) ^ m ≤ 2 ^ s := Nat.pow_le_pow_right (by norm_num) (by omega)
  have h2 : (2 : ℕ) ^ (s + 1) = 2 ^ s * 2 := pow_succ 2 s
  have h3 : (0 : ℕ) < 2 ^ m := Nat.two_pow_pos m
  omega

theorem stageLoop_stages (m : ℕ) (y : ℕ → ℂ) :
    ∀ k s, s ≤ m → m - s ≤ k →
      stageLoop (2 ^ m) (2 ^ (s + 1)) (applyStages (2 ^ m) y s)
        = applyStages (2 ^ m) y m := by
  intro k
  induction k with
  | zero =>
    intro s h1 h2
    have hs : s = m := by omega
    rw [hs]
    exact stageLoop_exit m m (applyStages (2 ^ m) y m) (by omega)
  | succ k ihk =>
    intro s h1 h2
    rcases Nat.lt_or_ge s m with hs | hs
    · have hp1 : (2 : ℕ) ^ (s + 1) = 2 ^ s * 2 := pow_succ 2 s
      have hp2 : (2 : ℕ) ^ (s + 2) = 2 ^ (s + 1) * 2 := pow_succ 2 (s + 1)
      have hle : (2 : ℕ) ^ (s + 1) ≤ 2 ^ m := Nat.pow_le_pow_right (by norm_num) (by omega)
      have hpos : (0 : ℕ) < 2 ^ s := Nat.two_pow_pos s
      have hb := blockLoop_closed (2 ^ m) (2 ^ (s + 1)) (twiddle (2 ^ (s + 1)))
        (by omega) (by omega) (pow_dvd_pow 2 (by omega)) (2 ^ m) 0
        (applyStages (2 ^ m) y s) (by omega)
      rw [Nat.zero_mul] at hb
      have hstep : stageLoop (2 ^ m) (2 ^ (s + 1)) (applyStages (2 ^ m) y s)
          = stageLoop (2 ^ m) (2 ^ (s + 2)) (applyStages (2 ^ m) y (s + 1)) := by
        conv_lhs => rw [stageLoop]
        rw [if_pos ⟨by omega, hle⟩, show 2 * 2 ^ (s + 1) = 2 ^ (s + 2) from by omega, hb]
        rfl
      rw [hstep]
      exact ihk (s + 1) (by omega) (by omega)
    · have hs2 : s = m := by omega
      rw [hs2]
      exact stageLoop_exit m m (applyStages (2 ^ m) y m) (by omega)

/-! ## Roots of unity and decimation helpers -/

theorem twiddle_eq_cexp (len : ℕ) : twiddle len = cexp (-2 * Real.pi / len) := by
  unfold twiddle cexp
  rw [Complex.mk_eq_add_mul_I, Complex.exp_mul_I, ← Complex.ofReal_cos, ← Complex.ofReal_sin]

theorem cexp_pow (θ : ℝ) (k : ℕ) : cexp θ ^ k = cexp (k * θ) := by
  unfold cexp
  rw [← Complex.exp_nat_mul]
  congr 1
  push_cast
  ring

theorem cexp_sq (s : ℕ) :
    cexp (-2 * Real.pi / 2 ^ (s + 1)) ^ 2 = cexp (-2 * Real.pi / 2 ^ s) := by
  rw [cexp_pow]
  congr 1
  have h : (2 : ℝ) ^ s ≠ 0 := by positivity
  push_cast
  field_simp
  ring

theorem cexp_order (s : ℕ) : cexp (-2 * Real.pi / 2 ^ s) ^ 2 ^ s = 1 := by
  rw [cexp_pow]
  have h : (2 : ℝ) ^ s ≠ 0 := by positivity
  have harg : ((2 ^ s : ℕ) : ℝ) * (-2 * Real.pi / 2 ^ s) = -2 * Real.pi := by
    push_cast
    field_simp
    ring
  rw [harg]
  unfold cexp
  have h2 := Complex.exp_int_mul_two_pi_mul_I (-1)
  rw [← h2]
  congr 1
  push_cast
  ring

theorem cexp_half_order (s : ℕ) : cexp (-2 * Real.pi / 2 ^ (s + 1)) ^ 2 ^ s = -1 := by
  rw [cexp_pow]
  have h : (2 : ℝ) ^ s ≠ 0 := by positivity
  have harg : ((2 ^ s : ℕ) : ℝ) * (-2 * Real.pi / 2 ^ (s + 1)) = -Real.pi := by
    push_cast
    have h2 : (2 : ℝ) ^ (s + 1) = 2 ^ s * 2 := by ring
    rw [h2]
    field_simp
    ring
  rw [harg]
  unfold cexp
  rw [show ((-Real.pi : ℝ) : ℂ) * Complex.I = -(↑Real.pi * Complex.I) from by push_cast; ring]
  rw [Complex.exp_neg, Complex.exp_pi_mul_I]
  norm_num

theorem bitRev_two_mul (d c : ℕ) : bitRev (d + 1) (2 * c) = bitRev d c := by
  simp only [bitRev]
  rw [Nat.mul_mod_right, Nat.mul_div_cancel_left c (by norm_num : 0 < 2)]
  omega

theorem bitRev_two_mul_add_one (d c : ℕ) :
    bitRev (d + 1) (2 * c + 1) = 2 ^ d + bitRev d c := by
  simp only [bitRev]
  rw [Nat.mul_add_mod, Nat.mul_add_div (by norm_num : 0 < 2)]
  norm_num

theorem sum_range_even_odd {M : Type} [AddCommMonoid M] (n : ℕ) (f : ℕ → M) :
    ∑ j ∈ Finset.range (2 * n), f j
      = (∑ u ∈ Finset.range n, f (2 * u)) + ∑ u ∈ Finset.range n, f (2 * u + 1) := by
  induction n with
  | zero => simp
  | succ n ih =>
    rw [show 2 * (n + 1) = 2 * n + 1 + 1 from by ring, Finset.sum_range_succ,
      Finset.sum_range_succ, ih, Finset.sum_range_succ, Finset.sum_range_succ]
    abel

theorem applyStages_spec (m : ℕ) (x y : ℕ → ℂ)
    (hy : ∀ p, p < 2 ^ m → y p = x (bitRev m p)) :
    ∀ s, s ≤ m → ∀ p, p < 2 ^ m → applyStages (2 ^ m) y s p = stageSpec m s x p := by
  intro s
  induction s with
  | zero =>
    intro hs p hp
    simp only [applyStages]
    rw [hy p hp]
    simp [stageSpec]
  | succ s ihs =>
    intro hs p hp
    have ih := ihs (by omega)
    simp only [applyStages, stageTransform, stageTransformFrom]
    rw [if_pos ⟨Nat.zero_le p, hp⟩]
    obtain ⟨c, r, hpcr, hrL⟩ : ∃ c r, p = c * 2 ^ (s + 1) + r ∧ r < 2 ^ (s + 1) := by
      refine ⟨p / 2 ^ (s + 1), p % 2 ^ (s + 1), ?_, Nat.mod_lt p (Nat.two_pow_pos (s + 1))⟩
      have h := Nat.div_add_mod p (2 ^ (s + 1))
      have h2 : (2 : ℕ) ^ (s + 1) * (p / 2 ^ (s + 1)) = p / 2 ^ (s + 1) * 2 ^ (s + 1) :=
        Nat.mul_comm _ _
      omega
    subst hpcr
    have hL : (2 : ℕ) ^ (s + 1) = 2 ^ s * 2 := pow_succ 2 s
    have hpos : (0 : ℕ) < 2 ^ s := Nat.two_pow_pos s
    have hhalf : (2 : ℕ) ^ (s + 1) / 2 = 2 ^ s := by omega
    have hd3 : m - s = m - (s + 1) + 1 := by omega
    have hmodL : (c * 2 ^ (s + 1) + r) % 2 ^ (s + 1) = r := by
      rw [Nat.add_comm, Nat.add_mul_mod_self_right]
      exact Nat.mod_eq_of_lt hrL
    have hdivL : (c * 2 ^ (s + 1) + r) / 2 ^ (s + 1) = c := by
      rw [Nat.add_comm, Nat.add_mul_div_right r c (Nat.two_pow_pos (s + 1)),
        Nat.div_eq_of_lt hrL, Nat.zero_add]
    have hcast : ((2 ^ (s + 1) : ℕ) : ℝ) = (2 : ℝ) ^ (s + 1) := by push_cast; ring
    simp only [stageSpec]
    rw [hmodL, hdivL, hhalf, twiddle_eq_cexp, hcast]
    by_cases hcr : r < 2 ^ s
    · rw [if_pos hcr]
      obtain ⟨D, hD⟩ : (2 : ℕ) ^ (s + 1) ∣ 2 ^ m := pow_dvd_pow 2 (by omega)
      have hcD : c < D := by
        by_contra hcon
        push_neg at hcon
        have h8 : (2 : ℕ) ^ (s + 1) * D ≤ 2 ^ (s + 1) * c := Nat.mul_le_mul_left _ hcon
        have h9 : (2 : ℕ) ^ (s + 1) * c = c * 2 ^ (s + 1) := Nat.mul_comm _ _
        omega
      have h10 : (c + 1) * 2 ^ (s + 1) ≤ D * 2 ^ (s + 1) := Nat.mul_le_mul_right _ (by omega)
      have h11 : D * 2 ^ (s + 1) = 2 ^ (s + 1) * D := Nat.mul_comm _ _
      have h12 : (c + 1) * 2 ^ (s + 1) = c * 2 ^ (s + 1) + 2 ^ (s + 1) := by ring
      have hplus : c * 2 ^ (s + 1) + r + 2 ^ s < 2 ^ m := by omega
      rw [ih (c * 2 ^ (s + 1) + r) hp, ih (c * 2 ^ (s + 1) + r + 2 ^ s) hplus]
      simp only [stageSpec]
      have e1 : c * 2 ^ (s + 1) + r = r + 2 * c * 2 ^ s := by rw [hL]; ring
      have hm1 : (c * 2 ^ (s + 1) + r) % 2 ^ s = r := by
        rw [e1, Nat.add_mul_mod_self_right, Nat.mod_eq_of_lt hcr]
      have hd1 : (c * 2 ^ (s + 1) + r) / 2 ^ s = 2 * c := by
        rw [e1, Nat.add_mul_div_right r (2 * c) hpos, Nat.div_eq_of_lt hcr, Nat.zero_add]
      have e2 : c * 2 ^ (s + 1) + r + 2 ^ s = r + (2 * c + 1) * 2 ^ s := by rw [hL]; ring
      have hm2 : (c * 2 ^ (s + 1) + r + 2 ^ s) % 2 ^ s = r := by
        rw [e2, Nat.add_mul_mod_self_right, Nat.mod_eq_of_lt hcr]
      have hd2 : (c * 2 ^ (s + 1) + r + 2 ^ s) / 2 ^ s = 2 * c + 1 := by
        rw [e2, Nat.add_mul_div_right r (2 * c + 1) hpos, Nat.div_eq_of_lt hcr, Nat.zero_add]
      rw [hm1, hd1, hm2, hd2]
      rw [show (2 : ℕ) ^ (s + 1) = 2 * 2 ^ s from by omega, sum_range_even_odd]
      congr 1
      · apply Finset.sum_congr rfl
        intro u hu
        dsimp only
        rw [hd3, bitRev_two_mul,
          show 2 * u * 2 ^ (m - (s + 1)) = u * 2 ^ (m - (s + 1) + 1) from by ring,
          show cexp (-2 * Real.pi / 2 ^ (s + 1)) ^ (r * (2 * u))
              = cexp (-2 * Real.pi / 2 ^ s) ^ (r * u)
            from by rw [show r * (2 * u) = 2 * (r * u) from by ring, pow_mul, cexp_sq]]
      · rw [Finset.mul_sum]
        apply Finset.sum_congr rfl
        intro u hu
        dsimp only
        rw [hd3, bitRev_two_mul_add_one,
          show (2 * u + 1) * 2 ^ (m - (s + 1)) + bitRev (m - (s + 1)) c
              = u * 2 ^ (m - (s + 1) + 1) + (2 ^ (m - (s + 1)) + bitRev (m - (s + 1)) c)
            from by ring,
          show cexp (-2 * Real.pi / 2 ^ (s + 1)) ^ (r * (2 * u + 1))
              = cexp (-2 * Real.pi / 2 ^ s) ^ (r * u)
                * cexp (-2 * Real.pi / 2 ^ (s + 1)) ^ r
            from by
              rw [show r * (2 * u + 1) = 2 * (r * u) + r from by ring, pow_add, pow_mul,
                cexp_sq]]
        ring
    · rw [if_neg hcr]
      obtain ⟨r2, hr2, hr2lt⟩ : ∃ r2, r = 2 ^ s + r2 ∧ r2 < 2 ^ s :=
        ⟨r - 2 ^ s, by omega, by omega⟩
      subst hr2
      have hsub1 : c * 2 ^ (s + 1) + (2 ^ s + r2) - 2 ^ s = c * 2 ^ (s + 1) + r2 := by omega
      have hsub2 : 2 ^ s + r2 - 2 ^ s = r2 := by omega
      rw [hsub1, hsub2]
      have hlow : c * 2 ^ (s + 1) + r2 < 2 ^ m := by omega
      rw [ih (c * 2 ^ (s + 1) + r2) hlow, ih (c * 2 ^ (s + 1) + (2 ^ s + r2)) hp]
      simp only [stageSpec]
      have e1 : c * 2 ^ (s + 1) + r2 = r2 + 2 * c * 2 ^ s := by rw [hL]; ring
      have hm1 : (c * 2 ^ (s + 1) + r2) % 2 ^ s = r2 := by
        rw [e1, Nat.add_mul_mod_self_right, Nat.mod_eq_of_lt hr2lt]
      have hd1 : (c * 2 ^ (s + 1) + r2) / 2 ^ s = 2 * c := by
        rw [e1, Nat.add_mul_div_right r2 (2 * c) hpos, Nat.div_eq_of_lt hr2lt, Nat.zero_add]
      have e2 : c * 2 ^ (s + 1) + (2 ^ s + r2) = r2 + (2 * c + 1) * 2 ^ s := by rw [hL]; ring
      have hm2 : (c * 2 ^ (s + 1) + (2 ^ s + r2)) % 2 ^ s = r2 := by
        rw [e2, Nat.add_mul_mod_self_right, Nat.mod_eq_of_lt hr2lt]
      have hd2 : (c * 2 ^ (s + 1) + (2 ^ s + r2)) / 2 ^ s = 2 * c + 1 := by
        rw [e2, Nat.add_mul_div_right r2 (2 * c + 1) hpos, Nat.div_eq_of_lt hr2lt, Nat.zero_add]
      rw [hm1, hd1, hm2, hd2]
      rw [show (2 : ℕ) ^ (s + 1) = 2 * 2 ^ s from by omega, sum_range_even_odd, sub_eq_add_neg]
      congr 1
      · apply Finset.sum_congr rfl
        intro u hu
        dsimp only
        rw [hd3, bitRev_two_mul,
          show 2 * u * 2 ^ (m - (s + 1)) = u * 2 ^ (m - (s + 1) + 1) from by ring,
          show cexp (-2 * Real.pi / 2 ^ (s + 1)) ^ ((2 ^ s + r2) * (2 * u))
              = cexp (-2 * Real.pi / 2 ^ s) ^ (r2 * u)
            from by
              rw [show (2 ^ s + r2) * (2 * u) = 2 * ((2 ^ s + r2) * u) from by ring, pow_mul,
                cexp_sq, show (2 ^ s + r2) * u = 2 ^ s * u + r2 * u from by ring, pow_add,
                pow_mul, cexp_order, one_pow, one_mul]]
      · rw [Finset.mul_sum, ← Finset.sum_neg_distrib]
        apply Finset.sum_congr rfl
        intro u hu
        dsimp only
        rw [hd3, bitRev_two_mul_add_one,
          show (2 * u + 1) * 2 ^ (m - (s + 1)) + bitRev (m - (s + 1)) c
              = u * 2 ^ (m - (s + 1) + 1) + (2 ^ (m - (s + 1)) + bitRev (m - (s + 1)) c)
            from by ring,
          show cexp (-2 * Real.pi / 2 ^ (s + 1)) ^ ((2 ^ s + r2) * (2 * u + 1))
              = cexp (-2 * Real.pi / 2 ^ s) ^ (r2 * u)
                * (-1 * cexp (-2 * Real.pi / 2 ^ (s + 1)) ^ r2)
            from by
              rw [show (2 ^ s + r2) * (2 * u + 1) = 2 * ((2 ^ s + r2) * u) + (2 ^ s + r2)
                  from by ring,
                pow_add, pow_mul, cexp_sq,
                show (2 ^ s + r2) * u = 2 ^ s * u + r2 * u from by ring, pow_add, pow_mul,
                cexp_order, one_pow, one_mul, pow_add, cexp_half_order]]
        ring

theorem fft_eq_dft (m : ℕ) (x : ℕ → ℂ) (k : ℕ) (hk : k < 2 ^ m) :
    fft (2 ^ m) x k = dft (2 ^ m) x k := by
  have hb := bitrevPass_spec m x
  have h1 : stageLoop (2 ^ m) 2 (bitrevPass (2 ^ m) x)
      = applyStages (2 ^ m) (bitrevPass (2 ^ m) x) m := by
    have h := stageLoop_stages m (bitrevPass (2 ^ m) x) m 0 (Nat.zero_le m) (by omega)
    rwa [show (2 : ℕ) ^ (0 + 1) = 2 from by norm_num] at h
  show stageLoop (2 ^ m) 2 (bitrevPass (2 ^ m) x) k = dft (2 ^ m) x k
  rw [h1, applyStages_spec m x (bitrevPass (2 ^ m) x) hb m (le_refl m) k hk]
  simp only [stageSpec, dft]
  rw [Nat.sub_self, Nat.mod_eq_of_lt hk, Nat.div_eq_of_lt hk]
  apply Finset.sum_congr rfl
  intro u hu
  simp only [bitRev, pow_zero, Nat.mul_one, Nat.add_zero]
  rw [cexp_pow]
  unfold cexp
  congr 1
  push_cast
  ring

/-- C8: for every input of power-of-two length n = 2^m (2048 in this engine)
and every output index k < n, the in-place transform - the bit-reversal
permutation followed by the iterative butterfly stages - leaves position k
holding exactly the reference discrete Fourier transform of the input with
kernel e^(-2 pi i j k / n). -/
theorem fft_computes_dft (n m : ℕ) (x : ℕ → ℂ) (k : ℕ) (hn : n = 2 ^ m) (hk : k < n) :
    fft n x k = dft n x k := by
  subst hn
  exact fft_eq_dft m x k hk

/-- Witness for C8 at the engine size n = 2048 = 2^11: the transform of the
ramp input agrees with the reference DFT at output index 5. -/
theorem fft_computes_dft_witness :
    (2048 : ℕ) = 2 ^ 11 ∧ 5 < 2048
      ∧ fft 2048 (fun j => (j : ℂ)) 5 = dft 2048 (fun j => (j : ℂ)) 5 :=
  ⟨by norm_num, by norm_num,
    fft_computes_dft 2048 11 (fun j => (j : ℂ)) 5 (by norm_num) (by norm_num)⟩

end BeatCanvas
